import Mathlib

/-!
Verification of the dashUAV event pipeline.

This file gives a shallow embedding of the algorithmic core of the
repository:

* `Backend` models `src/apps/api/src/backend.js` (the same module appears
  as `src/unnamed/part_002`): timestamp coercion, event normalisation,
  the bounded collections, ingestion, the query routes and the summary.
* `Dash` models the client-side core of `src/usv_dash.jsx`:
  `validateEvent`, `eventKey`, the LRU identity index, the deduplicating
  event buffer (`useEventBuffer.push` / `.snapshot`) and the spatial
  clustering (`groupOverlappingDetections`, `summarizeDetectionGroup`).

Modelling conventions, used throughout:

* JS numbers that the code requires to be finite integers (timestamps,
  counts, limits) are modelled as `Int`; latitude/longitude values are
  modelled as `Rat` (the claims under study never depend on
  floating-point rounding, only on comparisons and means).
* A JS field that the code only ever tests for truthiness and then
  interpolates into a string is modelled as `Option String`: `none`
  stands for an absent or falsy value, `some s` for a truthy value with
  string form `s`.
* `Date.parse` is opaque to the model: a string `ts` value is carried
  together with its parse result (`Option Int`, `none` meaning `NaN`).
* Impure inputs (`Date.now()`, the generated id of `safeId`) are passed
  as explicit parameters.
* JS `Map` objects (insertion ordered) are modelled as association
  lists; JS plain objects used as histograms are modelled the same way.
-/

/-- JS `String.prototype.startsWith`: code-unit prefix test.  (Modelled on
character lists, which is what a JS string is; Lean's builtin
`String.startsWith` is byte based and does not reduce in the kernel.) -/
def jsStartsWith (s p : String) : Bool := p.data.isPrefixOf s.data

/-- The whitespace test used by `jsTrim` (ASCII whitespace; the claims never
depend on the exotic Unicode part of the JS whitespace set). -/
def jsWhite (c : Char) : Bool := c = ' ' ∨ c = '\t' ∨ c = '\n' ∨ c = '\r'

/-- JS `String.prototype.trim`: drop whitespace from both ends. -/
def jsTrim (s : String) : String :=
  ⟨((s.data.dropWhile jsWhite).reverse.dropWhile jsWhite).reverse⟩

/-- JS `a || b` for a possibly-absent string value `a`: the value of `a`
when truthy (a nonempty string), else `b`. -/
def jsOrElse (a : Option String) (b : String) : String :=
  match a with
  | some s => if s = "" then b else s
  | none => b

/-- Truthiness of a possibly-absent string value (absent, and the empty
string, are falsy). -/
def jsTruthyS (a : Option String) : Bool :=
  match a with
  | some s => s ≠ ""
  | none => false

namespace Backend

/-- A JS value in `toTimestamp` position, abstracted by how the function
can observe it: a finite number; a non-finite number (`NaN`/`±Infinity`,
whose string form `Date.parse` cannot parse); or a non-number value
carried with its `Date.parse` result (`parseable n` when the parse is the
finite epoch value `n`, `unparseable` when it is `NaN`). -/
inductive TVal where
  | fin (n : Int)
  | nonFinNum
  | parseable (n : Int)
  | unparseable
deriving DecidableEq, Repr

/-- `toTimestamp` from `backend.js` (lines 29–35): pass a finite number
through, otherwise use `Date.parse`, otherwise `Date.now()` (the `now`
parameter). -/
def toTimestamp (now : Int) : TVal → Int
  | .fin n => n
  | .parseable n => n
  | .nonFinNum => now
  | .unparseable => now

/-- The payload object of a backend event.  Only the fields the claims
touch are carried; a JS `{}` is `⟨none⟩`. -/
structure PB where
  drone_id : Option String
deriving DecidableEq, Repr

/-- The canonical event produced by `normaliseEvent`. -/
structure BEvent where
  id : String
  type : String
  ts : Int
  payload : PB
  meta : Option PB
deriving DecidableEq, Repr

/-- The `type` field of a raw record: a string, or anything else
(absent or non-string), which `normaliseEvent` treats uniformly. -/
inductive BType where
  | str (s : String)
  | notStr
deriving DecidableEq, Repr

/-- The `ts` field of a raw record: absent/`null` (so that `??` kicks in),
or a value passed to `toTimestamp`. -/
inductive BTs where
  | absent
  | val (v : TVal)
deriving DecidableEq, Repr

/-- A raw inbound record that is object-like. -/
structure BRawObj where
  id : Option String
  type : BType
  ts : BTs
  payload : Option PB
  meta : Option PB
deriving DecidableEq, Repr

/-- A raw inbound value: not object-like (`null`, `undefined`, a
primitive), or an object-like record. -/
inductive BRaw where
  | notObj
  | obj (o : BRawObj)
deriving DecidableEq, Repr

/-- `sanitisePayload` (backend.js lines 37–42): an object passes through,
anything else becomes `{}`. -/
def sanitisePayload (p : Option PB) : PB := p.getD ⟨none⟩

/-- `normaliseEvent` (backend.js lines 106–133).  `now` is `Date.now()`,
`genId` the id `safeId()` would produce, `fallbackType` the caller's
fallback type (`none` when the caller passed `undefined`). -/
def normaliseEvent (now : Int) (genId : String) (input : BRaw)
    (fallbackType : Option String) : Option BEvent :=
  match input with
  | .notObj => none
  | .obj o =>
    let type : Option String :=
      match o.type with
      | .str s => if (jsTrim s).length > 0 then some (jsTrim s) else fallbackType
      | .notStr => fallbackType
    match type with
    | none => none
    | some t =>
      if t = "" then none
      else
        some
          { id := jsOrElse o.id genId
            type := t
            ts := toTimestamp now (match o.ts with | .absent => .fin now | .val v => v)
            payload := sanitisePayload o.payload
            meta := o.meta }

/-- `pushBounded` (backend.js lines 99–104): append, then drop from the
front until the length is back to `max`. -/
def pushBounded (list : List α) (item : α) (max : Nat) : List α :=
  let l := list ++ [item]
  if l.length > max then l.drop (l.length - max) else l

/-- The configuration surface the store consumes. -/
structure Config where
  maxEvents : Nat
  maxTelemetry : Nat
  maxDetections : Nat
  defaultEventLimit : Int
deriving DecidableEq, Repr

/-- The three independently capped collections of the store. -/
structure Store where
  events : List BEvent
  telemetry : List BEvent
  detections : List BEvent
deriving DecidableEq, Repr

/-- The store at process start. -/
def emptyStore : Store := ⟨[], [], []⟩

/-- `ingest` (backend.js lines 135–150).  The broadcast step touches no
store state and is omitted; the returned `Bool` is the acceptance flag. -/
def ingest (cfg : Config) (st : Store) (event : Option BEvent) : Store × Bool :=
  match event with
  | none => (st, false)
  | some e =>
    let st1 := { st with events := pushBounded st.events e cfg.maxEvents }
    let st2 :=
      if jsStartsWith e.type "telemetry" then
        { st1 with telemetry := pushBounded st1.telemetry e cfg.maxTelemetry }
      else if jsStartsWith e.type "detection" then
        { st1 with detections := pushBounded st1.detections e cfg.maxDetections }
      else st1
    (st2, true)

/-- Folding `ingest` over a list of already-normalised events. -/
def ingestAll (cfg : Config) (st : Store) (es : List BEvent) : Store :=
  es.foldl (fun s e => (ingest cfg s (some e)).1) st

/-- JS `arr.slice(start)` for an integer `start` (negative counts from the
end); `arr.slice(-k)` in the routes is `jsSlice arr (-k)`. -/
def jsSlice (l : List α) (start : Int) : List α :=
  l.drop ((if start < 0 then max ((l.length : Int) + start) 0
    else min start (l.length : Int)).toNat)

/-- The `/api/events` route handler (backend.js lines 168–182).
`limit`/`since` are the parsed query parameters (`none` when
`Number.parseInt` gave a non-finite result). -/
def getEvents (cfg : Config) (st : Store) (now : Int) (limit : Option Int)
    (since : Option Int) : List BEvent :=
  let events :=
    match since with
    | some s => st.events.filter (fun e => toTimestamp now (.fin e.ts) > s)
    | none => st.events
  let effectiveLimit : Int :=
    match limit with
    | some l => min (max l 1) (cfg.maxEvents : Int)
    | none => cfg.defaultEventLimit
  jsSlice events (-effectiveLimit)

/-- The `/api/telemetry` route handler (backend.js lines 184–191). -/
def getTelemetry (cfg : Config) (st : Store) (limit : Option Int) : List BEvent :=
  let effectiveLimit : Int :=
    match limit with
    | some l => min (max l 1) (cfg.maxTelemetry : Int)
    | none => min 200 (cfg.maxTelemetry : Int)
  jsSlice st.telemetry (-effectiveLimit)

/-- The `/api/detections` route handler (backend.js lines 193–200). -/
def getDetections (cfg : Config) (st : Store) (limit : Option Int) : List BEvent :=
  let effectiveLimit : Int :=
    match limit with
    | some l => min (max l 1) (cfg.maxDetections : Int)
    | none => min 200 (cfg.maxDetections : Int)
  jsSlice st.detections (-effectiveLimit)

/-- The totals object of the `/api/summary` route (backend.js lines
202–215): the three collection lengths. -/
def summaryTotals (st : Store) : Nat × Nat × Nat :=
  (st.events.length, st.telemetry.length, st.detections.length)

end Backend

namespace Dash

/-- The `ts` field of a client-side event: a finite JS number, or a JS
string carried together with its `Date.parse` value (`none` = `NaN`).
Values of any other type are rejected by `validateEvent`'s `typeof`
check, so the buffer never holds one; an absent `ts` is `Option.none`
at the use sites. -/
inductive JTs where
  | num (n : Int)
  | str (text : String) (parse : Option Int)
deriving DecidableEq, Repr

/-- The payload object of a client-side event, restricted to the fields
the dashboard core reads.  `lat`/`lon` are `some` exactly when the JS
value is a finite number (`Number.isFinite`); the string fields follow
the truthy-value convention. -/
structure Payload where
  detection_id : Option String
  drone_id : Option String
  lat : Option Rat
  lon : Option Rat
  category : Option String
deriving DecidableEq, Repr

/-- The JS object `{}`. -/
def emptyPayload : Payload := ⟨none, none, none, none, none⟩

/-- A client-side event record (an object-like JS value).  A raw push
input is an `Option Evt`, with `none` standing for any non-object-like
value. -/
structure Evt where
  id : Option String
  type : Option String
  ts : Option JTs
  payload : Option Payload
deriving DecidableEq, Repr

/-- Truthiness of the `ts` field (`0`, the empty string, and an absent
value are falsy). -/
def jsTruthyTs : Option JTs → Bool
  | some (.num n) => n ≠ 0
  | some (.str t _) => t ≠ ""
  | none => false

/-- `validateEvent` (usv_dash.jsx lines 49–55). -/
def validateEvent : Option Evt → Bool
  | none => false
  | some e =>
    jsTruthyS e.id && jsTruthyTs e.ts && jsTruthyS e.type &&
      e.payload.isSome

/-- `safePayload` (usv_dash.jsx line 57): `payload || {}`. -/
def safePayload (p : Option Payload) : Payload := p.getD emptyPayload

/-- The string the template literal renders for a `ts` value
(an absent field prints as `undefined`). -/
def tsText : Option JTs → String
  | some (.num n) => toString n
  | some (.str t _) => t
  | none => "undefined"

/-- The string rendered for `Math.floor(ts / 250)` where `ts` is the
numeric `ts` value or `Date.parse` of the string one (a failed parse
gives `NaN`, which prints as `NaN`; `Math.floor` on reals is `Int.fdiv`
on integers). -/
def bucketText : Option JTs → String
  | some (.num n) => toString (Int.fdiv n 250)
  | some (.str _ (some p)) => toString (Int.fdiv p 250)
  | some (.str _ none) => "NaN"
  | none => "NaN"

/-- `eventKey` (usv_dash.jsx lines 81–92). -/
def eventKey : Option Evt → String
  | none => ""
  | some e =>
    let p := safePayload e.payload
    if jsTruthyS e.type && jsStartsWith (e.type.getD "") "detection" &&
        jsTruthyS p.detection_id then
      "det:" ++ jsOrElse p.detection_id ""
    else if jsTruthyS e.type && jsStartsWith (e.type.getD "") "telemetry" &&
        jsTruthyS p.drone_id then
      "tel:" ++ jsOrElse p.drone_id "" ++ ":" ++ bucketText e.ts
    else
      "evt:" ++ (if jsTruthyS e.id then jsOrElse e.id "" else tsText e.ts)

/-- The identity index of `makeLRU` (usv_dash.jsx lines 94–107): a JS
`Map` as an insertion-ordered association list (head = oldest key). -/
def LRU := List (String × Evt)

/-- `makeLRU(..).has`. -/
def lruHas (m : List (String × Evt)) (k : String) : Bool :=
  m.any (fun p => p.1 = k)

/-- `makeLRU(..).set`: `Map.set` updates an existing key in place (the
insertion position is kept) or appends a new one; then the oldest key is
deleted if the size exceeds the capacity. -/
def lruSet (cap : Nat) (m : List (String × Evt)) (k : String) (v : Evt) :
    List (String × Evt) :=
  let m1 :=
    if lruHas m k then m.map (fun p => if p.1 = k then (k, v) else p)
    else m ++ [(k, v)]
  if m1.length > cap then m1.drop 1 else m1

/-- `Map.get` on the modelled index (keys are unique in reachable
states; `find?` returns the entry for `k` if any). -/
def lruGet (m : List (String × Evt)) (k : String) : Option Evt :=
  (m.find? (fun p => p.1 = k)).map (fun p => p.2)

/-- The state of `useEventBuffer`: the capped feed list and the identity
index. -/
structure Buffer where
  feed : List Evt
  index : List (String × Evt)
deriving DecidableEq, Repr

/-- The buffer before any push. -/
def emptyBuffer : Buffer := ⟨[], []⟩

/-- `useEventBuffer.push` (usv_dash.jsx lines 289–301). -/
def push (capFeed capIndex : Nat) (st : Buffer) (evt : Option Evt) : Buffer :=
  if !validateEvent evt then st
  else
    match evt with
    | none => st
    | some e =>
      let key := eventKey (some e)
      if lruHas st.index key then
        { st with index := lruSet capIndex st.index key e }
      else
        let index1 := lruSet capIndex st.index key e
        let feed1 := st.feed ++ [e]
        let feed2 :=
          if feed1.length > capFeed then feed1.drop (feed1.length - capFeed)
          else feed1
        { feed := feed2, index := index1 }

/-- Folding `push` over a sequence of raw inputs from the initial state. -/
def pushAll (capFeed capIndex : Nat) (inputs : List (Option Evt)) : Buffer :=
  inputs.foldl (push capFeed capIndex) emptyBuffer

/-- The newest-to-oldest walk of `useEventBuffer.snapshot` (usv_dash.jsx
lines 308–321): `l` is the feed reversed, `seen` the set of keys already
kept. -/
def snapGo : List Evt → List String → List Evt
  | [], _ => []
  | e :: rest, seen =>
    let k := eventKey (some e)
    if seen.contains k then snapGo rest seen
    else e :: snapGo rest (k :: seen)

/-- `useEventBuffer.snapshot`: walk the feed newest to oldest keeping the
first occurrence of each key, then reverse back to chronological order. -/
def snapshot (st : Buffer) : List Evt :=
  (snapGo st.feed.reverse []).reverse

/-- Modelled from the spec (§4.3 `snapshot`): "keep only the most
recently appended entry per logical key, in chronological order" — keep
an entry exactly when no later feed entry has the same key. -/
def keepLatestPerKey : List Evt → List Evt
  | [] => []
  | e :: rest =>
    if rest.any (fun y => eventKey (some y) == eventKey (some e)) then
      keepLatestPerKey rest
    else e :: keepLatestPerKey rest

/-! ### Spatial clustering (`groupOverlappingDetections`)

The source computes pairwise distances with `haversineDistanceMeters`,
a pure floating-point function of the four coordinates.  Floating-point
trigonometry has no kernel-computable embedding, and the clustering
claims depend only on the boolean comparison `dist ≤ threshold`, so the
embedding takes the distance function `d` (and the threshold) as an
explicit parameter with the same signature `(lat1 lon1 lat2 lon2)`; the
algorithm itself is translated verbatim.  Its index sets (`used`,
`enqueued`) are JS `Set`s, modelled as lists of indices; the JS
`while (queue.length)` loop is modelled with an explicit fuel that the
entry point sets high enough to never run out (`bfs_fuel_enough`
below proves the chosen fuel is sufficient). -/

/-- An arbitrary inhabitant used for (provably in-range) list indexing. -/
def defaultEvt : Evt := ⟨none, none, none, none⟩

/-- `safe[i]` on the detections list. -/
def getEvt (safe : List Evt) (i : Nat) : Evt := safe.getD i defaultEvt

/-- A detection is locatable when both coordinates are finite numbers. -/
def locatable (e : Evt) : Bool :=
  (safePayload e.payload).lat.isSome && (safePayload e.payload).lon.isSome

/-- The latitude read by the algorithm (only read on locatable events). -/
def latOf (e : Evt) : Rat := (safePayload e.payload).lat.getD 0

/-- The longitude read by the algorithm. -/
def lonOf (e : Evt) : Rat := (safePayload e.payload).lon.getD 0

/-- The inner candidate scan of `groupOverlappingDetections`
(usv_dash.jsx lines 216–226): all indices `j` that are not yet used or
enqueued, are locatable, and lie within `t` of the current event `cur`. -/
def scanNbrs (safe : List Evt) (d : Rat → Rat → Rat → Rat → Rat) (t : Rat)
    (used enq : List Nat) (cur : Evt) : List Nat :=
  (List.range safe.length).filter (fun j =>
    let cand := getEvt safe j
    !used.contains j && !enq.contains j && locatable cand &&
      decide (d (latOf cur) (lonOf cur) (latOf cand) (lonOf cand) ≤ t))

/-- The `while (queue.length)` loop of `groupOverlappingDetections`
(usv_dash.jsx lines 204–227).  The JS queue is an array popped from the
end; it is modelled top-first, so `queue.push` of the scanned neighbours
(ascending `j`) prepends them in reverse.  Returns the members collected
and the final `used` set. -/
def bfs (safe : List Evt) (d : Rat → Rat → Rat → Rat → Rat) (t : Rat) :
    Nat → List Nat → List Nat → List Nat → List Evt → List Evt × List Nat
  | 0, _, used, _, members => (members, used)
  | _ + 1, [], used, _, members => (members, used)
  | fuel + 1, idx :: rest, used, enq, members =>
    if used.contains idx then bfs safe d t fuel rest used enq members
    else
      let cur := getEvt safe idx
      if !locatable cur then bfs safe d t fuel rest (idx :: used) enq members
      else
        let used1 := idx :: used
        let members1 := members ++ [cur]
        let ns := scanNbrs safe d t used1 enq cur
        bfs safe d t fuel (ns.reverse ++ rest) used1 (ns ++ enq) members1

/-- The cluster summary produced by `summarizeDetectionGroup`
(usv_dash.jsx lines 154–187). -/
structure Cluster where
  count : Nat
  lat : Rat
  lon : Rat
  categories : List (String × Nat)
  latestTs : Int
  primary : Evt
  members : List Evt
deriving DecidableEq, Repr

/-- `categories[cat] = (categories[cat] || 0) + 1` on a JS object modelled
as an insertion-ordered association list. -/
def bumpCat (l : List (String × Nat)) (k : String) : List (String × Nat) :=
  if l.any (fun p => p.1 = k) then
    l.map (fun p => if p.1 = k then (p.1, p.2 + 1) else p)
  else l ++ [(k, 1)]

/-- The numeric timestamp of an event as read by the analytics
(`typeof ts === "number" ? ts : Date.parse(ts)`); `none` is `NaN`. -/
def tsValOf (e : Evt) : Option Int :=
  match e.ts with
  | some (.num n) => some n
  | some (.str _ p) => p
  | none => none

/-- The accumulator of the member loop in `summarizeDetectionGroup`
(`latestTsVal = none` models the `-Infinity` start: any finite value
beats it). -/
structure SumSt where
  latSum : Rat
  lonSum : Rat
  categories : List (String × Nat)
  latestTsVal : Option Int
  primary : Evt
deriving DecidableEq, Repr

/-- One iteration of the member loop of `summarizeDetectionGroup`. -/
def sumStep (st : SumSt) (det : Evt) : SumSt :=
  let p := safePayload det.payload
  let s1 : SumSt :=
    { st with latSum := match p.lat with | some la => st.latSum + la | none => st.latSum }
  let s2 : SumSt :=
    { s1 with lonSum := match p.lon with | some lo => s1.lonSum + lo | none => s1.lonSum }
  let s3 : SumSt := { s2 with categories := bumpCat s2.categories (jsOrElse p.category "UNKNOWN") }
  match tsValOf det, s3.latestTsVal with
  | some v, none => { s3 with latestTsVal := some v, primary := det }
  | some v, some b =>
    if v > b then { s3 with latestTsVal := some v, primary := det } else s3
  | none, _ => s3

/-- `summarizeDetectionGroup` (usv_dash.jsx lines 154–187); `now` is the
`Date.now()` fallback used when no member has a finite timestamp. -/
def summarize (now : Int) (members : List Evt) : Option Cluster :=
  match members with
  | [] => none
  | m0 :: _ =>
    let fin := members.foldl sumStep ⟨0, 0, [], none, m0⟩
    some
      { count := members.length
        lat := fin.latSum / (members.length : Rat)
        lon := fin.lonSum / (members.length : Rat)
        categories := fin.categories
        latestTs := fin.latestTsVal.getD now
        primary := fin.primary
        members := members }

/-- Stable insertion into a list sorted by descending `count` (an element
goes before every later element of equal count, as JS's stable
`sort((a, b) => b.count - a.count)` does). -/
def insertByCount (c : Cluster) : List Cluster → List Cluster
  | [] => [c]
  | x :: xs => if x.count ≤ c.count then c :: x :: xs else x :: insertByCount c xs

/-- `groups.sort((a, b) => b.count - a.count)`: stable descending sort. -/
def sortByCountDesc : List Cluster → List Cluster
  | [] => []
  | x :: xs => insertByCount x (sortByCountDesc xs)

/-- The seed loop of `groupOverlappingDetections` (usv_dash.jsx lines
194–233) over the remaining seed indices `is`, threading `used` and the
accumulated groups. -/
def groupsGo (safe : List Evt) (d : Rat → Rat → Rat → Rat → Rat) (t : Rat)
    (now : Int) : List Nat → List Nat → List Cluster → List Cluster
  | [], _, acc => acc
  | i :: is, used, acc =>
    if used.contains i then groupsGo safe d t now is used acc
    else if !locatable (getEvt safe i) then groupsGo safe d t now is used acc
    else
      let r := bfs safe d t (safe.length + 1) [i] used [i] []
      if r.1.length > 1 then
        match summarize now r.1 with
        | some s => groupsGo safe d t now is r.2 (acc ++ [s])
        | none => groupsGo safe d t now is r.2 acc
      else groupsGo safe d t now is r.2 acc

/-- `groupOverlappingDetections` (usv_dash.jsx lines 189–236), with the
distance function and threshold as parameters (see the section header). -/
def groupOverlappingDetections (d : Rat → Rat → Rat → Rat → Rat) (t : Rat)
    (now : Int) (detections : List Evt) : List Cluster :=
  sortByCountDesc (groupsGo detections d t now (List.range detections.length) [] [])


/-- The positions of the locatable detections in the input list, in
order (proof scaffolding for relating a clustering run to the run on
the filtered list). -/
def locPos (ds : List Evt) : List Nat :=
  (List.range ds.length).filter (fun i => locatable (getEvt ds i))

/-- An upper bound on the number of loop iterations `bfs` still has to
make from a given queue and enqueued set: the queue length plus the
number of indices not yet enqueued (proof scaffolding for the fuel
sufficiency lemmas). -/
def bfsSteps (n : Nat) (queue enq : List Nat) : Nat :=
  queue.length + ((List.range n).filter (fun j => !enq.contains j)).length

end Dash

/-! ## Theorems -/

section BoundedCollection

open Backend

theorem length_drop_sub_le (ys : List α) (N : Nat) :
    (ys.drop (ys.length - N)).length ≤ N := by
  simp [List.length_drop]
  omega

theorem pushBounded_eq_drop (l : List α) (x : α) (N : Nat) (_h : l.length ≤ N) :
    pushBounded l x N = (l ++ [x]).drop ((l ++ [x]).length - N) := by
  show (if (l ++ [x]).length > N then (l ++ [x]).drop ((l ++ [x]).length - N)
      else l ++ [x]) = _
  split
  · rfl
  · next hgt =>
    have h0 : (l ++ [x]).length - N = 0 := by
      simp only [List.length_append, List.length_singleton] at hgt ⊢
      omega
    rw [h0, List.drop_zero]

theorem drop_window_append (ys xs : List α) (N : Nat) :
    ((ys.drop (ys.length - N)) ++ xs).drop
        (((ys.drop (ys.length - N)) ++ xs).length - N) =
      (ys ++ xs).drop ((ys ++ xs).length - N) := by
  have hk : ys.length - N ≤ ys.length := Nat.sub_le _ _
  rw [← List.drop_append_of_le_length hk, List.drop_drop]
  congr 1
  simp [List.length_drop, List.length_append]
  omega

theorem foldl_pushBounded (N : Nat) (xs : List α) :
    ∀ l : List α, l.length ≤ N →
      xs.foldl (fun acc x => pushBounded acc x N) l =
        (l ++ xs).drop ((l ++ xs).length - N) := by
  induction xs with
  | nil =>
    intro l h
    simp
    have : l.length - N = 0 := by omega
    simp [this]
  | cons x xs ih =>
    intro l h
    rw [List.foldl_cons, pushBounded_eq_drop l x N h,
      ih _ (length_drop_sub_le _ _), drop_window_append]
    simp

/-- C1: for every sequence of inserts through `pushBounded` into a
collection of capacity `N`, after each insert (equivalently, for every
insert sequence `xs`) the collection length is at most `N`, and the
surviving elements are exactly the `N` most recently inserted elements
in their original insertion order (the oldest entries are dropped from
the front; nothing is reordered). -/
theorem pushBounded_window (N : Nat) (xs : List Backend.BEvent) :
    (xs.foldl (fun acc x => Backend.pushBounded acc x N) []).length ≤ N ∧
    xs.foldl (fun acc x => Backend.pushBounded acc x N) [] =
      xs.drop (xs.length - N) := by
  have h := foldl_pushBounded N xs ([] : List Backend.BEvent) (by simp)
  simp at h
  refine ⟨?_, h⟩
  rw [h]
  exact length_drop_sub_le _ _

end BoundedCollection


section DedupSnapshot

open Dash

theorem snapGo_cons_of_seen {e : Evt} {l : List Evt} {seen : List String}
    (hk : seen.contains (eventKey (some e)) = true) :
    snapGo (e :: l) seen = snapGo l seen := by
  simp only [snapGo, hk, if_true]

theorem snapGo_cons_of_new {e : Evt} {l : List Evt} {seen : List String}
    (hk : seen.contains (eventKey (some e)) = false) :
    snapGo (e :: l) seen = e :: snapGo l (eventKey (some e) :: seen) := by
  simp only [snapGo, hk, Bool.false_eq_true, if_false]

theorem snapGo_append (x : Evt) :
    ∀ (l : List Evt) (seen : List String),
      snapGo (l ++ [x]) seen =
        snapGo l seen ++
          (if seen.contains (eventKey (some x))
              || l.any (fun y => eventKey (some y) == eventKey (some x))
           then [] else [x]) := by
  intro l
  induction l with
  | nil =>
    intro seen
    simp [snapGo]
  | cons e rest ih =>
    intro seen
    rw [List.cons_append]
    by_cases hk : seen.contains (eventKey (some e)) = true
    · rw [snapGo_cons_of_seen hk, snapGo_cons_of_seen hk, ih seen]
      congr 1
      rw [List.any_cons]
      by_cases hex : (eventKey (some e) == eventKey (some x)) = true
      · have hmem : eventKey (some x) ∈ seen := by
          have hsx : seen.contains (eventKey (some x)) = true :=
            (eq_of_beq hex) ▸ hk
          simpa using hsx
        simp [hmem]
      · simp only [Bool.not_eq_true] at hex
        rw [hex, Bool.false_or]
    · simp only [Bool.not_eq_true] at hk
      rw [snapGo_cons_of_new hk, snapGo_cons_of_new hk,
        ih (eventKey (some e) :: seen), List.cons_append]
      congr 2
      rw [List.contains_cons, List.any_cons,
        Bool.beq_comm (a := eventKey (some x)) (b := eventKey (some e)),
        Bool.or_assoc, Bool.or_left_comm]

theorem snapList_eq_keepLatest :
    ∀ l : List Evt, (snapGo l.reverse []).reverse = keepLatestPerKey l := by
  intro l
  induction l with
  | nil => simp [snapGo, keepLatestPerKey]
  | cons e rest ih =>
    rw [List.reverse_cons, snapGo_append, List.reverse_append, ih]
    have hc : (([] : List String)).contains (eventKey (some e)) = false := rfl
    rw [hc, Bool.false_or, List.any_reverse]
    by_cases hany :
        rest.any (fun y => eventKey (some y) == eventKey (some e)) = true
    · simp [keepLatestPerKey, hany]
    · simp only [Bool.not_eq_true] at hany
      simp [keepLatestPerKey, hany]

theorem keepLatest_sublist (l : List Evt) : (keepLatestPerKey l).Sublist l := by
  induction l with
  | nil => simp [keepLatestPerKey]
  | cons e rest ih =>
    unfold keepLatestPerKey
    split
    · exact ih.trans (List.sublist_cons_self e rest)
    · exact ih.cons₂ e

theorem keepLatest_keys_nodup (l : List Evt) :
    ((keepLatestPerKey l).map (fun e => eventKey (some e))).Nodup := by
  induction l with
  | nil => simp [keepLatestPerKey]
  | cons e rest ih =>
    unfold keepLatestPerKey
    split
    · exact ih
    · next hany =>
      simp only [List.map_cons, List.nodup_cons]
      refine ⟨?_, ih⟩
      intro hmem
      simp only [List.mem_map] at hmem
      obtain ⟨y, hy, hkey⟩ := hmem
      have hy' : y ∈ rest := (keepLatest_sublist rest).mem hy
      have : rest.any (fun y => eventKey (some y) == eventKey (some e)) = true := by
        rw [List.any_eq_true]
        exact ⟨y, hy', by simp [hkey]⟩
      simp [this] at hany

/-- C2: for every sequence of raw push calls into the deduplicating
ingestion buffer, `snapshot` keeps exactly the most recently appended
feed entry for each logical key (`eventKey`), in chronological order
(`keepLatestPerKey` is the spec-side statement of that walk), and in
particular the snapshot never contains two entries with the same
logical key — even when stale shadow entries for a key remain in the
raw feed list after an identity-index eviction. -/
theorem snapshot_dedup (capF capI : Nat) (inputs : List (Option Dash.Evt)) :
    Dash.snapshot (Dash.pushAll capF capI inputs) =
      Dash.keepLatestPerKey (Dash.pushAll capF capI inputs).feed ∧
    ((Dash.snapshot (Dash.pushAll capF capI inputs)).map
        (fun e => Dash.eventKey (some e))).Nodup := by
  constructor
  · exact snapList_eq_keepLatest _
  · rw [Dash.snapshot, snapList_eq_keepLatest]
    exact keepLatest_keys_nodup _

end DedupSnapshot

section PushFrame

open Dash

theorem lruSet_length_le (cap : Nat) (m : List (String × Evt)) (k : String)
    (v : Evt) (h : m.length ≤ cap) : (lruSet cap m k v).length ≤ cap := by
  unfold lruSet
  by_cases hhas : lruHas m k = true
  · simp only [hhas, if_true]
    split
    · simp
      omega
    · simpa using h
  · simp only [Bool.not_eq_true] at hhas
    simp only [hhas, Bool.false_eq_true, if_false]
    split
    · next hgt =>
      simp only [List.length_append, List.length_singleton] at hgt ⊢
      simpa [List.length_drop] using h
    · next hgt =>
      simp only [List.length_append, List.length_singleton, Nat.not_lt] at hgt ⊢
      omega

theorem push_index_length_le (capF capI : Nat) (st : Buffer) (evt : Option Evt)
    (h : st.index.length ≤ capI) :
    (push capF capI st evt).index.length ≤ capI := by
  unfold push
  split
  · exact h
  · split
    · exact h
    · next e _ =>
      by_cases hhas : lruHas st.index (eventKey (some e)) = true
      · simp only [hhas, if_true]
        exact lruSet_length_le _ _ _ _ h
      · simp only [Bool.not_eq_true] at hhas
        simp only [hhas, Bool.false_eq_true, if_false]
        exact lruSet_length_le _ _ _ _ h

theorem pushAll_index_length_le (capF capI : Nat) (inputs : List (Option Evt)) :
    (pushAll capF capI inputs).index.length ≤ capI := by
  suffices h : ∀ st : Buffer, st.index.length ≤ capI →
      (inputs.foldl (push capF capI) st).index.length ≤ capI by
    exact h emptyBuffer (by simp [emptyBuffer])
  induction inputs with
  | nil => intro st h; exact h
  | cons x xs ih =>
    intro st h
    exact ih _ (push_index_length_le capF capI st x h)

/-- C5: pushing a validated event whose logical key is already present in
the identity index leaves the feed list completely unchanged, and the
index is changed only by overwriting the entry for that key (same keys,
same positions, same other entries). -/
theorem push_repeat_key_frame (capF capI : Nat) (inputs : List (Option Evt))
    (e : Evt)
    (hv : validateEvent (some e) = true)
    (hhas : lruHas (pushAll capF capI inputs).index (eventKey (some e)) = true) :
    (push capF capI (pushAll capF capI inputs) (some e)).feed =
      (pushAll capF capI inputs).feed ∧
    (push capF capI (pushAll capF capI inputs) (some e)).index =
      (pushAll capF capI inputs).index.map
        (fun p => if p.1 = eventKey (some e) then (eventKey (some e), e) else p) := by
  have hlen : (pushAll capF capI inputs).index.length ≤ capI :=
    pushAll_index_length_le capF capI inputs
  have hmap :
      lruSet capI (pushAll capF capI inputs).index (eventKey (some e)) e =
        (pushAll capF capI inputs).index.map
          (fun p => if p.1 = eventKey (some e) then (eventKey (some e), e) else p) := by
    unfold lruSet
    simp only [hhas, if_true]
    split
    · next hgt =>
      exfalso
      simp only [List.length_map] at hgt
      omega
    · rfl
  constructor
  · unfold push
    simp only [hv, Bool.not_true, Bool.false_eq_true, if_false, hhas, if_true]
  · unfold push
    simp only [hv, Bool.not_true, Bool.false_eq_true, if_false, hhas, if_true]
    exact hmap

/-- Witness for C5 at a concrete buffer: push the same validated event
twice; the second push finds the key in the index and leaves the feed
unchanged while overwriting the index entry. -/
theorem push_repeat_key_frame_witness :
    validateEvent (some ⟨some "a", some "x", some (.num 1), some emptyPayload⟩) = true ∧
    lruHas (pushAll 4 4 [some ⟨some "a", some "x", some (.num 1), some emptyPayload⟩]).index
      (eventKey (some ⟨some "a", some "x", some (.num 1), some emptyPayload⟩)) = true ∧
    ((push 4 4 (pushAll 4 4 [some ⟨some "a", some "x", some (.num 1), some emptyPayload⟩])
        (some ⟨some "a", some "x", some (.num 1), some emptyPayload⟩)).feed =
      (pushAll 4 4 [some ⟨some "a", some "x", some (.num 1), some emptyPayload⟩]).feed ∧
    (push 4 4 (pushAll 4 4 [some ⟨some "a", some "x", some (.num 1), some emptyPayload⟩])
        (some ⟨some "a", some "x", some (.num 1), some emptyPayload⟩)).index =
      (pushAll 4 4 [some ⟨some "a", some "x", some (.num 1), some emptyPayload⟩]).index.map
        (fun p => if p.1 = eventKey (some ⟨some "a", some "x", some (.num 1), some emptyPayload⟩)
          then (eventKey (some ⟨some "a", some "x", some (.num 1), some emptyPayload⟩),
            (⟨some "a", some "x", some (.num 1), some emptyPayload⟩ : Evt)) else p)) :=
  ⟨by decide, by decide, push_repeat_key_frame 4 4 _ _ (by decide) (by decide)⟩

end PushFrame

section EventKeyFallback

open Dash

/-- C7 counterexample: an event that is neither a detection with a
`detection_id` nor a telemetry event with a `drone_id`, carrying its own
id `"abc"`, gets the dedup key `"evt:abc"` — not its own id `"abc"` as
the claim states (and an id-less event would get `"evt:" ++ ts`, with no
type in it, not `type + timestamp`). -/
theorem eventKey_fallback_counterexample :
    eventKey (some ⟨some "abc", some "status:ok", some (.num 5),
        some emptyPayload⟩) = "evt:abc" ∧
    "evt:abc" ≠ "abc" ∧
    eventKey (some ⟨none, some "status:ok", some (.num 5),
        some emptyPayload⟩) = "evt:5" ∧
    "evt:5" ≠ "status:ok:5" := by
  refine ⟨by decide, by decide, by decide, by decide⟩

/-- C7 (amended): for every event that is neither a detection with a
truthy `detection_id` nor a telemetry event with a truthy `drone_id`,
the logical identity key is `"evt:"` followed by the event's own id, or
`"evt:"` followed by the string form of its timestamp when the id is
absent or falsy (the type is not part of the fallback key). -/
theorem eventKey_fallback (e : Evt)
    (hdet : (jsTruthyS e.type && jsStartsWith (e.type.getD "") "detection" &&
      jsTruthyS (safePayload e.payload).detection_id) = false)
    (htel : (jsTruthyS e.type && jsStartsWith (e.type.getD "") "telemetry" &&
      jsTruthyS (safePayload e.payload).drone_id) = false) :
    eventKey (some e) =
      "evt:" ++ (if jsTruthyS e.id then jsOrElse e.id "" else tsText e.ts) := by
  unfold eventKey
  simp only [hdet, htel, Bool.false_eq_true, if_false]

/-- Witness for C7's amended theorem at a concrete event. -/
theorem eventKey_fallback_witness :
    ((jsTruthyS (some "status:ok") && jsStartsWith "status:ok" "detection" &&
      jsTruthyS (safePayload (some emptyPayload)).detection_id) = false) ∧
    ((jsTruthyS (some "status:ok") && jsStartsWith "status:ok" "telemetry" &&
      jsTruthyS (safePayload (some emptyPayload)).drone_id) = false) ∧
    eventKey (some ⟨some "abc", some "status:ok", some (.num 5),
        some emptyPayload⟩) = "evt:abc" :=
  ⟨by decide, by decide,
    (eventKey_fallback ⟨some "abc", some "status:ok", some (.num 5),
      some emptyPayload⟩ (by decide) (by decide)).trans (by decide)⟩

end EventKeyFallback

section PushValidation

open Dash

theorem lruGet_append_new (k : String) (v : Evt) :
    ∀ m : List (String × Evt), lruHas m k = false →
      lruGet (m ++ [(k, v)]) k = some v := by
  intro m
  induction m with
  | nil => intro _; simp [lruGet]
  | cons a m ih =>
    intro h
    simp only [lruHas, List.any_cons, Bool.or_eq_false_iff] at h
    have hne : ¬((fun (p : String × Evt) => decide (p.1 = k)) a = true) := by
      simp only [decide_eq_true_eq]
      intro heq
      simp [heq] at h
    rw [List.cons_append]
    have hfind : List.find? (fun (p : String × Evt) => decide (p.1 = k))
        (a :: (m ++ [(k, v)])) =
        List.find? (fun p => decide (p.1 = k)) (m ++ [(k, v)]) :=
      List.find?_cons_of_neg _ hne
    show ((a :: (m ++ [(k, v)])).find? (fun p => decide (p.1 = k))).map
      (fun p => p.2) = some v
    rw [hfind]
    exact ih (by simpa [lruHas] using h.2)

theorem lruGet_map_replace (k : String) (v : Evt) :
    ∀ m : List (String × Evt), lruHas m k = true →
      lruGet (m.map (fun p => if p.1 = k then (k, v) else p)) k = some v := by
  intro m
  induction m with
  | nil => intro h; simp [lruHas] at h
  | cons a m ih =>
    intro h
    by_cases ha : a.1 = k
    · simp [lruGet, List.find?_cons, ha]
    · simp only [lruHas, List.any_cons, decide_eq_false ha, Bool.false_or] at h
      have hne : ¬((fun (p : String × Evt) => decide (p.1 = k))
          (if a.1 = k then (k, v) else a) = true) := by
        simp [ha]
      rw [List.map_cons]
      have hfind : List.find? (fun (p : String × Evt) => decide (p.1 = k))
          ((if a.1 = k then (k, v) else a) ::
            m.map (fun p => if p.1 = k then (k, v) else p)) =
          List.find? (fun p => decide (p.1 = k))
            (m.map (fun p => if p.1 = k then (k, v) else p)) :=
        List.find?_cons_of_neg _ hne
      show (((if a.1 = k then (k, v) else a) ::
          m.map (fun p => if p.1 = k then (k, v) else p)).find?
            (fun p => decide (p.1 = k))).map (fun p => p.2) = some v
      rw [hfind]
      exact ih (by simpa [lruHas] using h)

theorem lruGet_lruSet (cap : Nat) (m : List (String × Evt)) (k : String)
    (v : Evt) (hlen : m.length ≤ cap) (hcap : 1 ≤ cap) :
    lruGet (lruSet cap m k v) k = some v := by
  unfold lruSet
  by_cases hhas : lruHas m k = true
  · simp only [hhas, if_true]
    split
    · next hgt =>
      exfalso
      simp only [List.length_map] at hgt
      omega
    · exact lruGet_map_replace k v m hhas
  · simp only [Bool.not_eq_true] at hhas
    simp only [hhas, Bool.false_eq_true, if_false]
    split
    · next hgt =>
      simp only [List.length_append, List.length_singleton] at hgt
      match m, hgt with
      | [], hgt => simp at hgt; omega
      | a :: m, _ =>
        have hm : lruHas m k = false := by
          simp only [lruHas, List.any_cons, Bool.or_eq_false_iff] at hhas
          simpa [lruHas] using hhas.2
        simpa using lruGet_append_new k v m hm
    · exact lruGet_append_new k v m hhas

theorem push_index_eq_lruSet (capF capI : Nat) (st : Buffer) (e : Evt)
    (hv : validateEvent (some e) = true) :
    (push capF capI st (some e)).index =
      lruSet capI st.index (eventKey (some e)) e := by
  unfold push
  simp only [hv, Bool.not_true, Bool.false_eq_true, if_false]
  split
  · rfl
  · rfl

/-- C6 (amended): the deduplicating buffer's `push` accepts a record
exactly when `validateEvent` does (an object with truthy `id`, `ts` and
`type`, `ts` a number or string, and an object `payload`): a rejected
record leaves the buffer completely unchanged, an accepted record is
stored in the identity index under its logical key.  This contract is
strictly different from the §4.1 normalizer's shape contract — see
`push_validate_differs_from_normalise` — since in particular a record
lacking an id or timestamp but carrying a resolvable type is rejected
by `push` even though the normalizer accepts it. -/
theorem push_accepts_iff_validate (capF capI : Nat) (inputs : List (Option Evt))
    (raw : Option Evt) (hcap : 1 ≤ capI) :
    (validateEvent raw = false →
      push capF capI (pushAll capF capI inputs) raw = pushAll capF capI inputs) ∧
    (∀ e, raw = some e → validateEvent raw = true →
      lruGet (push capF capI (pushAll capF capI inputs) raw).index
        (eventKey raw) = some e) := by
  constructor
  · intro hval
    unfold push
    simp [hval]
  · intro e hraw hval
    subst hraw
    rw [push_index_eq_lruSet capF capI _ e hval]
    exact lruGet_lruSet capI _ _ e (pushAll_index_length_le capF capI inputs) hcap

/-- Witness for C6's amended theorem at a concrete accepted record. -/
theorem push_accepts_iff_validate_witness :
    (1 : Nat) ≤ 4 ∧
    validateEvent (some ⟨some "a", some "x", some (.num 1), some emptyPayload⟩) = true ∧
    lruGet (push 4 4 (pushAll 4 4 [])
        (some ⟨some "a", some "x", some (.num 1), some emptyPayload⟩)).index
      (eventKey (some ⟨some "a", some "x", some (.num 1), some emptyPayload⟩)) =
      some ⟨some "a", some "x", some (.num 1), some emptyPayload⟩ :=
  ⟨by decide, by decide,
    (push_accepts_iff_validate 4 4 [] _ (by decide)).2 _ rfl (by decide)⟩

/-- C6 counterexample: a record lacking both an id and a timestamp but
carrying the resolvable type `"telemetry:update"` is accepted by the
§4.1 normalizer (`normaliseEvent` returns an event) yet rejected by the
buffer's `push` (`validateEvent` is false and the buffer is left
unchanged) — so `push` does not validate with the normalizer's shape
contract, refuting the claimed equivalence. -/
theorem push_validate_differs_from_normalise :
    (Backend.normaliseEvent 1000 "gen"
        (.obj ⟨none, .str "telemetry:update", .absent, some ⟨none⟩, none⟩)
        (some "x")).isSome = true ∧
    validateEvent (some ⟨none, some "telemetry:update", none, some emptyPayload⟩)
      = false ∧
    push 4 4 emptyBuffer
        (some ⟨none, some "telemetry:update", none, some emptyPayload⟩) =
      emptyBuffer := by
  refine ⟨by decide, by decide, by decide⟩

end PushValidation

section SummaryTotals

open Backend

theorem ingest_step (cfg : Config) (st : Store) (e : BEvent) :
    (ingest cfg st (some e)).1 =
      { events := pushBounded st.events e cfg.maxEvents
        telemetry :=
          if jsStartsWith e.type "telemetry" then
            pushBounded st.telemetry e cfg.maxTelemetry
          else st.telemetry
        detections :=
          if !jsStartsWith e.type "telemetry" && jsStartsWith e.type "detection" then
            pushBounded st.detections e cfg.maxDetections
          else st.detections } := by
  unfold ingest
  by_cases ht : jsStartsWith e.type "telemetry" = true
  · simp [ht]
  · simp only [Bool.not_eq_true] at ht
    by_cases hd : jsStartsWith e.type "detection" = true
    · simp [ht, hd]
    · simp only [Bool.not_eq_true] at hd
      simp [ht, hd]

theorem ingestAll_decomp (cfg : Config) :
    ∀ (es : List BEvent) (st : Store),
      ingestAll cfg st es =
        { events := es.foldl (fun acc x => pushBounded acc x cfg.maxEvents) st.events
          telemetry :=
            (es.filter (fun e => jsStartsWith e.type "telemetry")).foldl
              (fun acc x => pushBounded acc x cfg.maxTelemetry) st.telemetry
          detections :=
            (es.filter (fun e =>
                !jsStartsWith e.type "telemetry" && jsStartsWith e.type "detection")).foldl
              (fun acc x => pushBounded acc x cfg.maxDetections) st.detections } := by
  intro es
  induction es with
  | nil => intro st; simp [ingestAll]
  | cons e es ih =>
    intro st
    show ingestAll cfg ((ingest cfg st (some e)).1) es = _
    rw [ih, ingest_step]
    by_cases ht : jsStartsWith e.type "telemetry" = true
    · simp [ht, List.filter_cons]
    · simp only [Bool.not_eq_true] at ht
      by_cases hd : jsStartsWith e.type "detection" = true
      · simp [ht, hd, List.filter_cons]
      · simp only [Bool.not_eq_true] at hd
        simp [ht, hd, List.filter_cons]

theorem foldl_pushBounded_length_of_le (N : Nat) (xs : List BEvent)
    (h : xs.length ≤ N) :
    (xs.foldl (fun acc x => pushBounded acc x N) ([] : List BEvent)).length
      = xs.length := by
  rw [foldl_pushBounded N xs ([] : List BEvent) (by simp)]
  simp only [List.nil_append]
  have : xs.length - N = 0 := by omega
  simp [this]

/-- C4: ingesting, into a fresh store, a batch consisting of `k` events
whose type starts with `"telemetry"` and `m` events whose type starts
with `"detection"` (in any interleaving; no type matches both prefixes,
which the per-element hypothesis records), with each collection's cap
not exceeded, makes the summary totals exactly
`(events, telemetry, detections) = (k + m, k, m)`. -/
theorem summary_totals_consistent (cfg : Config) (es : List BEvent) (k m : Nat)
    (hsplit : ∀ e ∈ es,
      (jsStartsWith e.type "telemetry" = true ∧ jsStartsWith e.type "detection" = false) ∨
      (jsStartsWith e.type "detection" = true ∧ jsStartsWith e.type "telemetry" = false))
    (hk : (es.filter (fun e => jsStartsWith e.type "telemetry")).length = k)
    (hm : (es.filter (fun e => jsStartsWith e.type "detection")).length = m)
    (hke : k + m ≤ cfg.maxEvents) (hkt : k ≤ cfg.maxTelemetry)
    (hmd : m ≤ cfg.maxDetections) :
    summaryTotals (ingestAll cfg emptyStore es) = (k + m, k, m) := by
  have hdet_eq :
      es.filter (fun e =>
          !jsStartsWith e.type "telemetry" && jsStartsWith e.type "detection") =
        es.filter (fun e => jsStartsWith e.type "detection") := by
    apply List.filter_congr
    intro e he
    rcases hsplit e he with ⟨h1, h2⟩ | ⟨h1, h2⟩
    · simp [h1, h2]
    · simp [h1, h2]
  have hlen : es.length = k + m := by
    have hpart := List.length_eq_length_filter_add
      (l := es) (fun e => jsStartsWith e.type "telemetry")
    have hnot_eq :
        es.filter (fun e => !jsStartsWith e.type "telemetry") =
          es.filter (fun e => jsStartsWith e.type "detection") := by
      apply List.filter_congr
      intro e he
      rcases hsplit e he with ⟨h1, h2⟩ | ⟨h1, h2⟩
      · simp [h1, h2]
      · simp [h1, h2]
    rw [hk, hnot_eq, hm] at hpart
    exact hpart
  rw [ingestAll_decomp]
  show ((es.foldl (fun acc x => pushBounded acc x cfg.maxEvents) ([] : List BEvent)).length,
      ((es.filter (fun e => jsStartsWith e.type "telemetry")).foldl
        (fun acc x => pushBounded acc x cfg.maxTelemetry) ([] : List BEvent)).length,
      ((es.filter (fun e =>
          !jsStartsWith e.type "telemetry" && jsStartsWith e.type "detection")).foldl
        (fun acc x => pushBounded acc x cfg.maxDetections) ([] : List BEvent)).length)
    = (k + m, k, m)
  rw [hdet_eq]
  rw [foldl_pushBounded_length_of_le cfg.maxEvents es (by omega),
    foldl_pushBounded_length_of_le cfg.maxTelemetry _ (by rw [hk]; omega),
    foldl_pushBounded_length_of_le cfg.maxDetections _ (by rw [hm]; omega)]
  rw [hlen, hk, hm]

/-- Witness for C4: one telemetry and one detection event into a fresh
store with caps 5/5/5 gives totals (2, 1, 1). -/
theorem summary_totals_consistent_witness :
    summaryTotals (ingestAll ⟨5, 5, 5, 200⟩ emptyStore
        [⟨"1", "telemetry:update", 0, ⟨none⟩, none⟩,
         ⟨"2", "detection:new", 0, ⟨none⟩, none⟩]) = (2, 1, 1) :=
  summary_totals_consistent ⟨5, 5, 5, 200⟩
    [⟨"1", "telemetry:update", 0, ⟨none⟩, none⟩,
     ⟨"2", "detection:new", 0, ⟨none⟩, none⟩] 1 1
    (by decide) (by decide) (by decide) (by decide) (by decide) (by decide)

end SummaryTotals

section QueryLimits

open Backend

theorem jsSlice_neg_length (l : List α) (e : Int) (he : 1 ≤ e) :
    (jsSlice l (-e)).length ≤ l.length ∧
      ((jsSlice l (-e)).length : Int) ≤ e := by
  unfold jsSlice
  have hlt : (-e) < 0 := by omega
  rw [if_pos hlt]
  simp only [List.length_drop]
  constructor
  · omega
  · omega

/-- C9: for every caller-supplied finite integer `limit`, each of the
three query routes returns at most the underlying collection's
configured capacity many events (the effective window is the clamp of
the limit into `[1, capacity]`), and never more than the collection
currently holds. -/
theorem query_limits_clamped (cfg : Config) (st : Store) (now : Int) (l : Int)
    (s : Option Int) (hE : 1 ≤ cfg.maxEvents) (hT : 1 ≤ cfg.maxTelemetry)
    (hD : 1 ≤ cfg.maxDetections) :
    ((getEvents cfg st now (some l) s).length ≤ cfg.maxEvents ∧
      (getEvents cfg st now (some l) s).length ≤ st.events.length) ∧
    ((getTelemetry cfg st (some l)).length ≤ cfg.maxTelemetry ∧
      (getTelemetry cfg st (some l)).length ≤ st.telemetry.length) ∧
    ((getDetections cfg st (some l)).length ≤ cfg.maxDetections ∧
      (getDetections cfg st (some l)).length ≤ st.detections.length) := by
  refine ⟨?_, ?_, ?_⟩
  · have heff : (1 : Int) ≤ min (max l 1) (cfg.maxEvents : Int) := by omega
    have hcap : min (max l 1) (cfg.maxEvents : Int) ≤ (cfg.maxEvents : Int) :=
      min_le_right _ _
    unfold getEvents
    cases s with
    | none =>
      have h := jsSlice_neg_length st.events (min (max l 1) (cfg.maxEvents : Int)) heff
      exact ⟨by exact_mod_cast le_trans h.2 hcap, h.1⟩
    | some sv =>
      have h := jsSlice_neg_length
        (st.events.filter (fun e => toTimestamp now (.fin e.ts) > sv))
        (min (max l 1) (cfg.maxEvents : Int)) heff
      refine ⟨by exact_mod_cast le_trans h.2 hcap, ?_⟩
      exact le_trans h.1 (List.length_filter_le _ _)
  · have heff : (1 : Int) ≤ min (max l 1) (cfg.maxTelemetry : Int) := by omega
    have hcap : min (max l 1) (cfg.maxTelemetry : Int) ≤ (cfg.maxTelemetry : Int) :=
      min_le_right _ _
    have h := jsSlice_neg_length st.telemetry
      (min (max l 1) (cfg.maxTelemetry : Int)) heff
    exact ⟨by exact_mod_cast le_trans h.2 hcap, h.1⟩
  · have heff : (1 : Int) ≤ min (max l 1) (cfg.maxDetections : Int) := by omega
    have hcap : min (max l 1) (cfg.maxDetections : Int) ≤ (cfg.maxDetections : Int) :=
      min_le_right _ _
    have h := jsSlice_neg_length st.detections
      (min (max l 1) (cfg.maxDetections : Int)) heff
    exact ⟨by exact_mod_cast le_trans h.2 hcap, h.1⟩

/-- Witness for C9: a huge requested limit (1000000) against collections
of 3 entries and capacity 2 returns at most 2 entries on each route. -/
theorem query_limits_clamped_witness :
    (1 : Nat) ≤ 2 ∧
    (((getEvents ⟨2, 2, 2, 200⟩
        ⟨[⟨"1", "x", 0, ⟨none⟩, none⟩, ⟨"2", "x", 0, ⟨none⟩, none⟩,
          ⟨"3", "x", 0, ⟨none⟩, none⟩], [], []⟩ 0 (some 1000000) none).length ≤ 2 ∧
      (getEvents ⟨2, 2, 2, 200⟩
        ⟨[⟨"1", "x", 0, ⟨none⟩, none⟩, ⟨"2", "x", 0, ⟨none⟩, none⟩,
          ⟨"3", "x", 0, ⟨none⟩, none⟩], [], []⟩ 0 (some 1000000) none).length ≤ 3) ∧
    ((getTelemetry ⟨2, 2, 2, 200⟩
        ⟨[⟨"1", "x", 0, ⟨none⟩, none⟩, ⟨"2", "x", 0, ⟨none⟩, none⟩,
          ⟨"3", "x", 0, ⟨none⟩, none⟩], [], []⟩ (some 1000000)).length ≤ 2 ∧
      (getTelemetry ⟨2, 2, 2, 200⟩
        ⟨[⟨"1", "x", 0, ⟨none⟩, none⟩, ⟨"2", "x", 0, ⟨none⟩, none⟩,
          ⟨"3", "x", 0, ⟨none⟩, none⟩], [], []⟩ (some 1000000)).length ≤ 0) ∧
    ((getDetections ⟨2, 2, 2, 200⟩
        ⟨[⟨"1", "x", 0, ⟨none⟩, none⟩, ⟨"2", "x", 0, ⟨none⟩, none⟩,
          ⟨"3", "x", 0, ⟨none⟩, none⟩], [], []⟩ (some 1000000)).length ≤ 2 ∧
      (getDetections ⟨2, 2, 2, 200⟩
        ⟨[⟨"1", "x", 0, ⟨none⟩, none⟩, ⟨"2", "x", 0, ⟨none⟩, none⟩,
          ⟨"3", "x", 0, ⟨none⟩, none⟩], [], []⟩ (some 1000000)).length ≤ 0)) :=
  ⟨by decide,
    query_limits_clamped ⟨2, 2, 2, 200⟩
      ⟨[⟨"1", "x", 0, ⟨none⟩, none⟩, ⟨"2", "x", 0, ⟨none⟩, none⟩,
        ⟨"3", "x", 0, ⟨none⟩, none⟩], [], []⟩ 0 1000000 none
      (by decide) (by decide) (by decide)⟩

end QueryLimits

section TimestampTotal

open Backend

/-- C10: `toTimestamp` is total and always yields a (finite) integer: a
finite number passes through unchanged, a value whose `Date.parse` is a
finite epoch value maps to that value, and every other input (non-finite
numbers, unparseable strings and other unparseable values) maps to the
current time; consequently every event the normalizer produces has its
`ts` computed by `toTimestamp` (with `Date.now()` substituted when the
raw `ts` is absent), hence a finite numeric `ts`. -/
theorem toTimestamp_total (now : Int) :
    (∀ n : Int, toTimestamp now (.fin n) = n) ∧
    (∀ n : Int, toTimestamp now (.parseable n) = n) ∧
    toTimestamp now .nonFinNum = now ∧
    toTimestamp now .unparseable = now ∧
    (∀ (genId : String) (input : BRaw) (fallbackType : Option String),
      (normaliseEvent now genId input fallbackType).all
        (fun e => e.ts = toTimestamp now
          (match input with
           | .obj o => (match o.ts with | .absent => .fin now | .val v => v)
           | .notObj => .fin now)) = true) := by
  refine ⟨fun n => rfl, fun n => rfl, rfl, rfl, ?_⟩
  intro genId input fb
  cases input with
  | notObj => rfl
  | obj o =>
    unfold normaliseEvent
    dsimp only
    cases hty : (match o.type with
      | BType.str s => if (jsTrim s).length > 0 then some (jsTrim s) else fb
      | BType.notStr => fb) with
    | none => rfl
    | some t =>
      by_cases ht : t = ""
      · simp [ht]
      · simp [ht, Option.all]

end TimestampTotal

section ClusterChaining

open Dash

/-- C3: chaining in `groupOverlappingDetections` — for locatable
detections A, B, C (in input order) with d(A,B) ≤ threshold and
d(B,C) ≤ threshold but d(A,C) > threshold (the distances exactly as the
algorithm evaluates them, current point first; the source instantiates
`d` with the symmetric haversine formula), all three land in one single
cluster of size 3: membership is transitive reachability over the
threshold graph, not pairwise closeness. -/
theorem cluster_chaining (d : Rat → Rat → Rat → Rat → Rat) (t : Rat) (now : Int)
    (A B C : Evt)
    (hA : locatable A = true) (hB : locatable B = true) (hC : locatable C = true)
    (hAB : d (latOf A) (lonOf A) (latOf B) (lonOf B) ≤ t)
    (hBC : d (latOf B) (lonOf B) (latOf C) (lonOf C) ≤ t)
    (hAC : ¬ d (latOf A) (lonOf A) (latOf C) (lonOf C) ≤ t) :
    (groupOverlappingDetections d t now [A, B, C]).map Cluster.members = [[A, B, C]] ∧
    (groupOverlappingDetections d t now [A, B, C]).map Cluster.count = [3] := by
  have hAB' : decide (d (latOf A) (lonOf A) (latOf B) (lonOf B) ≤ t) = true :=
    decide_eq_true hAB
  have hBC' : decide (d (latOf B) (lonOf B) (latOf C) (lonOf C) ≤ t) = true :=
    decide_eq_true hBC
  have hAC' : decide (d (latOf A) (lonOf A) (latOf C) (lonOf C) ≤ t) = false :=
    decide_eq_false hAC
  have hscan0 : scanNbrs [A, B, C] d t [0] [0] A = [1] := by
    unfold scanNbrs
    have hr : List.range 3 = [0, 1, 2] := rfl
    rw [show ([A, B, C] : List Evt).length = 3 from rfl, hr]
    simp [getEvt, defaultEvt, hA, hB, hC, hAB', hAC', List.filter_cons,
      List.getElem?_cons_zero, List.getElem?_cons_succ]
  have hscan1 : scanNbrs [A, B, C] d t [1, 0] [1, 0] B = [2] := by
    unfold scanNbrs
    have hr : List.range 3 = [0, 1, 2] := rfl
    rw [show ([A, B, C] : List Evt).length = 3 from rfl, hr]
    simp [getEvt, defaultEvt, hA, hB, hC, hBC', List.filter_cons,
      List.getElem?_cons_zero, List.getElem?_cons_succ]
  have hscan2 : scanNbrs [A, B, C] d t [2, 1, 0] [2, 1, 0] C = [] := by
    unfold scanNbrs
    have hr : List.range 3 = [0, 1, 2] := rfl
    rw [show ([A, B, C] : List Evt).length = 3 from rfl, hr]
    simp [List.filter_cons]
  have hbfs : bfs [A, B, C] d t 4 [0] [] [0] [] = ([A, B, C], [2, 1, 0]) := by
    simp [bfs, hscan0, hscan1, hscan2, hA, hB, hC, getEvt]
  have hgg : groupsGo [A, B, C] d t now [0, 1, 2] [] [] =
      [{ count := 3
         lat := (([A, B, C].foldl sumStep ⟨0, 0, [], none, A⟩).latSum) / (3 : Rat)
         lon := (([A, B, C].foldl sumStep ⟨0, 0, [], none, A⟩).lonSum) / (3 : Rat)
         categories := ([A, B, C].foldl sumStep ⟨0, 0, [], none, A⟩).categories
         latestTs := (([A, B, C].foldl sumStep ⟨0, 0, [], none, A⟩).latestTsVal).getD now
         primary := ([A, B, C].foldl sumStep ⟨0, 0, [], none, A⟩).primary
         members := [A, B, C] }] := by
    simp [groupsGo, hbfs, hA, getEvt, summarize]
  rw [groupOverlappingDetections,
    show List.range ([A, B, C] : List Evt).length = [0, 1, 2] from rfl, hgg]
  simp [sortByCountDesc, insertByCount]

/-- Witness for C3 at three concrete collinear detections 0, 1, 2 with
threshold 1 and a concrete distance oracle. -/
theorem cluster_chaining_witness :
    locatable ⟨some "a", some "detection:new", some (.num 1),
      some ⟨none, none, some 0, some 0, none⟩⟩ = true ∧
    locatable ⟨some "b", some "detection:new", some (.num 2),
      some ⟨none, none, some 1, some 0, none⟩⟩ = true ∧
    locatable ⟨some "c", some "detection:new", some (.num 3),
      some ⟨none, none, some 2, some 0, none⟩⟩ = true ∧
    ((groupOverlappingDetections
        (fun la1 _lo1 la2 _lo2 => if la1 = la2 then (0 : Rat) else if la1 = 0 ∧ la2 = 2 then 2 else if la1 = 2 ∧ la2 = 0 then 2 else 1) 1 0
        [⟨some "a", some "detection:new", some (.num 1),
            some ⟨none, none, some 0, some 0, none⟩⟩,
         ⟨some "b", some "detection:new", some (.num 2),
            some ⟨none, none, some 1, some 0, none⟩⟩,
         ⟨some "c", some "detection:new", some (.num 3),
            some ⟨none, none, some 2, some 0, none⟩⟩]).map Cluster.members =
      [[⟨some "a", some "detection:new", some (.num 1),
            some ⟨none, none, some 0, some 0, none⟩⟩,
         ⟨some "b", some "detection:new", some (.num 2),
            some ⟨none, none, some 1, some 0, none⟩⟩,
         ⟨some "c", some "detection:new", some (.num 3),
            some ⟨none, none, some 2, some 0, none⟩⟩]] ∧
    (groupOverlappingDetections
        (fun la1 _lo1 la2 _lo2 => if la1 = la2 then (0 : Rat) else if la1 = 0 ∧ la2 = 2 then 2 else if la1 = 2 ∧ la2 = 0 then 2 else 1) 1 0
        [⟨some "a", some "detection:new", some (.num 1),
            some ⟨none, none, some 0, some 0, none⟩⟩,
         ⟨some "b", some "detection:new", some (.num 2),
            some ⟨none, none, some 1, some 0, none⟩⟩,
         ⟨some "c", some "detection:new", some (.num 3),
            some ⟨none, none, some 2, some 0, none⟩⟩]).map Cluster.count = [3]) :=
  ⟨by decide, by decide, by decide,
    cluster_chaining (fun la1 _lo1 la2 _lo2 => if la1 = la2 then (0 : Rat) else if la1 = 0 ∧ la2 = 2 then 2 else if la1 = 2 ∧ la2 = 0 then 2 else 1) 1 0
      ⟨some "a", some "detection:new", some (.num 1),
        some ⟨none, none, some 0, some 0, none⟩⟩
      ⟨some "b", some "detection:new", some (.num 2),
        some ⟨none, none, some 1, some 0, none⟩⟩
      ⟨some "c", some "detection:new", some (.num 3),
        some ⟨none, none, some 2, some 0, none⟩⟩
      (by decide) (by decide) (by decide) (by decide) (by decide) (by decide)⟩

end ClusterChaining

section ClusterUnlocatable

open Dash

theorem summarize_members (now : Int) (ms : List Evt) (c : Cluster)
    (h : summarize now ms = some c) : c.members = ms ∧ c.count = ms.length := by
  cases ms with
  | nil => simp [summarize] at h
  | cons m0 rest =>
    unfold summarize at h
    rw [Option.some_inj] at h
    subst h
    exact ⟨rfl, rfl⟩

theorem bfs_members_locatable (safe : List Evt) (d : Rat → Rat → Rat → Rat → Rat)
    (t : Rat) :
    ∀ (fuel : Nat) (queue used enq : List Nat) (members : List Evt),
      (∀ x ∈ members, locatable x = true) →
      ∀ x ∈ (bfs safe d t fuel queue used enq members).1, locatable x = true := by
  intro fuel
  induction fuel with
  | zero => intro q u e m hm x hx; exact hm x hx
  | succ f ih =>
    intro q u e m hm x hx
    match q with
    | [] => exact hm x hx
    | idx :: rest =>
      by_cases hcont : u.contains idx = true
      · have hin : idx ∈ u := by simpa using hcont
        rw [show bfs safe d t (f + 1) (idx :: rest) u e m
            = bfs safe d t f rest u e m by simp [bfs, hin]] at hx
        exact ih rest u e m hm x hx
      · simp only [Bool.not_eq_true] at hcont
        have hnin : idx ∉ u := by simpa using hcont
        by_cases hloc : locatable (getEvt safe idx) = true
        · rw [show bfs safe d t (f + 1) (idx :: rest) u e m
              = bfs safe d t f
                  ((scanNbrs safe d t (idx :: u) e (getEvt safe idx)).reverse ++ rest)
                  (idx :: u) (scanNbrs safe d t (idx :: u) e (getEvt safe idx) ++ e)
                  (m ++ [getEvt safe idx]) by
                simp [bfs, hnin, hloc]] at hx
          refine ih _ _ _ _ ?_ x hx
          intro y hy
          rcases List.mem_append.mp hy with hy | hy
          · exact hm y hy
          · rw [List.mem_singleton.mp hy]
            exact hloc
        · simp only [Bool.not_eq_true] at hloc
          rw [show bfs safe d t (f + 1) (idx :: rest) u e m
              = bfs safe d t f rest (idx :: u) e m by simp [bfs, hnin, hloc]] at hx
          exact ih rest (idx :: u) e m hm x hx

theorem groupsGo_members_locatable (safe : List Evt)
    (d : Rat → Rat → Rat → Rat → Rat) (t : Rat) (now : Int) :
    ∀ (S used : List Nat) (acc : List Cluster),
      (∀ g ∈ acc, ∀ x ∈ g.members, locatable x = true) →
      ∀ g ∈ groupsGo safe d t now S used acc, ∀ x ∈ g.members,
        locatable x = true := by
  intro S
  induction S with
  | nil =>
    intro used acc hacc g hg
    simpa [groupsGo] using hacc g (by simpa [groupsGo] using hg)
  | cons i is ih =>
    intro used acc hacc g hg
    by_cases hcont : used.contains i = true
    · have hin : i ∈ used := by simpa using hcont
      rw [show groupsGo safe d t now (i :: is) used acc
          = groupsGo safe d t now is used acc by simp [groupsGo, hin]] at hg
      exact ih used acc hacc g hg
    · simp only [Bool.not_eq_true] at hcont
      have hnin : i ∉ used := by simpa using hcont
      by_cases hloc : locatable (getEvt safe i) = true
      · set r := bfs safe d t (safe.length + 1) [i] used [i] [] with hr
        have hmem : ∀ x ∈ r.1, locatable x = true :=
          bfs_members_locatable safe d t _ _ _ _ _ (by intro x hx; simp at hx)
        by_cases hlen : r.1.length > 1
        · cases hsum : summarize now r.1 with
          | none =>
            rw [show groupsGo safe d t now (i :: is) used acc
                = groupsGo safe d t now is r.2 acc by
                  simp [groupsGo, hnin, hloc, ← hr, hlen, hsum]] at hg
            exact ih r.2 acc hacc g hg
          | some s =>
            rw [show groupsGo safe d t now (i :: is) used acc
                = groupsGo safe d t now is r.2 (acc ++ [s]) by
                  simp [groupsGo, hnin, hloc, ← hr, hlen, hsum]] at hg
            refine ih r.2 (acc ++ [s]) ?_ g hg
            intro g' hg' x hx
            rcases List.mem_append.mp hg' with hg' | hg'
            · exact hacc g' hg' x hx
            · rw [List.mem_singleton.mp hg'] at hx
              have := (summarize_members now r.1 s hsum).1
              rw [this] at hx
              exact hmem x hx
        · rw [show groupsGo safe d t now (i :: is) used acc
              = groupsGo safe d t now is r.2 acc by
                simp [groupsGo, hnin, hloc, ← hr, hlen]] at hg
          exact ih r.2 acc hacc g hg
      · simp only [Bool.not_eq_true] at hloc
        rw [show groupsGo safe d t now (i :: is) used acc
            = groupsGo safe d t now is used acc by simp [groupsGo, hnin, hloc]] at hg
        exact ih used acc hacc g hg

theorem mem_insertByCount (g c : Cluster) :
    ∀ l : List Cluster, g ∈ insertByCount c l ↔ g = c ∨ g ∈ l := by
  intro l
  induction l with
  | nil => simp [insertByCount]
  | cons x xs ih =>
    unfold insertByCount
    split
    · simp
    · simp only [List.mem_cons, ih]
      tauto

theorem mem_sortByCountDesc (g : Cluster) :
    ∀ l : List Cluster, g ∈ sortByCountDesc l ↔ g ∈ l := by
  intro l
  induction l with
  | nil => simp [sortByCountDesc]
  | cons x xs ih =>
    unfold sortByCountDesc
    rw [mem_insertByCount]
    simp only [List.mem_cons, ih]

theorem getEvt_cons_succ (x : Evt) (rest : List Evt) (i : Nat) :
    getEvt (x :: rest) (i + 1) = getEvt rest i := by
  simp [getEvt]

theorem locPos_cons (x : Evt) (rest : List Evt) :
    locPos (x :: rest) =
      (if locatable x then [0] else []) ++ (locPos rest).map (· + 1) := by
  unfold locPos
  rw [List.length_cons, List.range_succ_eq_map, List.filter_cons]
  have hmap : (List.range rest.length).map Nat.succ
      = (List.range rest.length).map (· + 1) := by
    simp [Nat.succ_eq_add_one]
  rw [hmap, List.filter_map]
  have hcomp : ((fun i => locatable (getEvt (x :: rest) i)) ∘ (· + 1))
      = fun i => locatable (getEvt rest i) := by
    funext i
    simp [Function.comp, getEvt_cons_succ]
  rw [hcomp]
  by_cases hx : locatable x = true
  · simp only [show getEvt (x :: rest) 0 = x from rfl, hx, if_true]
    rfl
  · simp only [Bool.not_eq_true] at hx
    simp only [show getEvt (x :: rest) 0 = x from rfl, hx, Bool.false_eq_true,
      if_false]
    rfl

theorem filter_eq_locPos_map (ds : List Evt) :
    ds.filter locatable = (locPos ds).map (getEvt ds) := by
  induction ds with
  | nil => rfl
  | cons x rest ih =>
    rw [List.filter_cons, locPos_cons, List.map_append, List.map_map]
    have hcomp : (getEvt (x :: rest)) ∘ (· + 1) = getEvt rest := by
      funext i
      simp [Function.comp, getEvt_cons_succ]
    rw [hcomp, ← ih]
    by_cases hx : locatable x = true
    · simp [hx]
      rfl
    · simp only [Bool.not_eq_true] at hx
      simp [hx]

theorem locPos_length (ds : List Evt) :
    (locPos ds).length = (ds.filter locatable).length := by
  rw [filter_eq_locPos_map, List.length_map]

theorem mem_locPos (ds : List Evt) (i : Nat) :
    i ∈ locPos ds ↔ i < ds.length ∧ locatable (getEvt ds i) = true := by
  simp [locPos, List.mem_filter, List.mem_range]

theorem locPos_pairwise (ds : List Evt) : (locPos ds).Pairwise (· < ·) :=
  List.Pairwise.filter _ (List.pairwise_lt_range _)

theorem range_map_getD (l : List Nat) :
    (List.range l.length).map (fun k => l.getD k 0) = l := by
  induction l with
  | nil => rfl
  | cons x xs ih =>
    rw [List.length_cons, List.range_succ_eq_map, List.map_cons, List.map_map]
    have hcomp : ((fun k => (x :: xs).getD k 0) ∘ Nat.succ)
        = fun k => xs.getD k 0 := by
      funext k
      simp
    rw [hcomp, ih]
    rfl

theorem getD_strictMono_of_pairwise (l : List Nat) (h : l.Pairwise (· < ·))
    (k1 k2 : Nat) (hlt : k1 < k2) (hk2 : k2 < l.length) :
    l.getD k1 0 < l.getD k2 0 := by
  have hk1 : k1 < l.length := lt_trans hlt hk2
  rw [List.getD_eq_getElem l 0 hk1, List.getD_eq_getElem l 0 hk2]
  exact List.pairwise_iff_getElem.mp h k1 k2 hk1 hk2 hlt

theorem getD_inj_of_pairwise (l : List Nat) (h : l.Pairwise (· < ·))
    (k1 k2 : Nat) (hk1 : k1 < l.length) (hk2 : k2 < l.length)
    (heq : l.getD k1 0 = l.getD k2 0) : k1 = k2 := by
  rcases Nat.lt_trichotomy k1 k2 with hlt | heqk | hgt
  · exact absurd heq (Nat.ne_of_lt (getD_strictMono_of_pairwise l h k1 k2 hlt hk2))
  · exact heqk
  · exact absurd heq.symm
      (Nat.ne_of_lt (getD_strictMono_of_pairwise l h k2 k1 hgt hk1))

theorem getEvt_filter_eq (ds : List Evt) (k : Nat)
    (hk : k < (locPos ds).length) :
    getEvt (ds.filter locatable) k = getEvt ds ((locPos ds).getD k 0) := by
  unfold getEvt
  rw [List.getD_eq_getElem?_getD (ds.filter locatable) k defaultEvt,
    filter_eq_locPos_map, List.getElem?_map,
    List.getElem?_eq_getElem (by simpa using hk)]
  rw [List.getD_eq_getElem (locPos ds) 0 hk]
  simp [getEvt]

theorem bool_shuffle1 (a b l dd : Bool) :
    (((a && b) && l) && dd) = (((a && b) && dd) && l) := by
  cases a <;> cases b <;> cases l <;> cases dd <;> rfl

theorem bool_true_third (a b dd : Bool) :
    (((a && b) && true) && dd) = ((a && b) && dd) := by
  cases a <;> cases b <;> cases dd <;> rfl

theorem contains_map_getD (ds : List Evt) (S : List Nat) (k : Nat)
    (hS : ∀ j ∈ S, j < (locPos ds).length) (hk : k < (locPos ds).length) :
    (S.map (fun j => (locPos ds).getD j 0)).contains ((locPos ds).getD k 0)
      = S.contains k := by
  have hiff : ((locPos ds).getD k 0) ∈ S.map (fun j => (locPos ds).getD j 0)
      ↔ k ∈ S := by
    constructor
    · intro h
      obtain ⟨j, hjS, hje⟩ := List.mem_map.mp h
      have hjk := getD_inj_of_pairwise _ (locPos_pairwise ds) j k (hS j hjS) hk hje
      rwa [hjk] at hjS
    · intro h
      exact List.mem_map_of_mem _ h
  by_cases h : k ∈ S
  · have h2 : (S.map (fun j => (locPos ds).getD j 0)).contains
        ((locPos ds).getD k 0) = true := by
      simpa using hiff.mpr h
    have h1 : S.contains k = true := by simpa using h
    rw [h2, h1]
  · have h2 : (S.map (fun j => (locPos ds).getD j 0)).contains
        ((locPos ds).getD k 0) = false := by
      rw [Bool.eq_false_iff]
      intro hc
      exact h (hiff.mp (by simpa using hc))
    have h1 : S.contains k = false := by
      rw [Bool.eq_false_iff]
      intro hc
      exact h (by simpa using hc)
    rw [h2, h1]

theorem mem_scanNbrs_lt (safe : List Evt) (d : Rat → Rat → Rat → Rat → Rat)
    (t : Rat) (u e : List Nat) (cur : Evt) (j : Nat)
    (hj : j ∈ scanNbrs safe d t u e cur) : j < safe.length := by
  unfold scanNbrs at hj
  exact List.mem_range.mp (List.mem_of_mem_filter hj)

theorem getD_locPos_mem (ds : List Evt) (k : Nat)
    (hk : k < (locPos ds).length) : (locPos ds).getD k 0 ∈ locPos ds := by
  rw [List.getD_eq_getElem (locPos ds) 0 hk]
  exact List.getElem_mem hk

theorem locatable_getD_locPos (ds : List Evt) (k : Nat)
    (hk : k < (locPos ds).length) :
    locatable (getEvt ds ((locPos ds).getD k 0)) = true :=
  ((mem_locPos ds _).mp (getD_locPos_mem ds k hk)).2

theorem scanNbrs_map (ds : List Evt) (d : Rat → Rat → Rat → Rat → Rat) (t : Rat)
    (uK eK : List Nat) (cur : Evt)
    (hu : ∀ j ∈ uK, j < (locPos ds).length)
    (he : ∀ j ∈ eK, j < (locPos ds).length) :
    scanNbrs ds d t (uK.map (fun j => (locPos ds).getD j 0))
        (eK.map (fun j => (locPos ds).getD j 0)) cur
      = (scanNbrs (ds.filter locatable) d t uK eK cur).map
          (fun j => (locPos ds).getD j 0) := by
  have hn' : (ds.filter locatable).length = (locPos ds).length :=
    (locPos_length ds).symm
  unfold scanNbrs
  dsimp only
  have h1 : (List.range ds.length).filter (fun j =>
        ((!(uK.map (fun j => (locPos ds).getD j 0)).contains j &&
          !(eK.map (fun j => (locPos ds).getD j 0)).contains j) &&
            locatable (getEvt ds j)) &&
              decide (d (latOf cur) (lonOf cur) (latOf (getEvt ds j))
                (lonOf (getEvt ds j)) ≤ t))
      = (locPos ds).filter (fun j =>
          (!(uK.map (fun j => (locPos ds).getD j 0)).contains j &&
            !(eK.map (fun j => (locPos ds).getD j 0)).contains j) &&
              decide (d (latOf cur) (lonOf cur) (latOf (getEvt ds j))
                (lonOf (getEvt ds j)) ≤ t)) := by
    rw [List.filter_congr (fun j _ => bool_shuffle1 _ _ _ _), ← List.filter_filter]
    rfl
  rw [h1]
  have h2 : locPos ds = (List.range (locPos ds).length).map
      (fun j => (locPos ds).getD j 0) := (range_map_getD (locPos ds)).symm
  nth_rewrite 3 [h2]
  rw [List.filter_map, hn']
  congr 1
  apply List.filter_congr
  intro k hk
  have hk' : k < (locPos ds).length := List.mem_range.mp hk
  simp only [Function.comp]
  rw [contains_map_getD ds uK k hu hk', contains_map_getD ds eK k he hk']
  rw [← getEvt_filter_eq ds k hk']
  have hloc : locatable (getEvt (ds.filter locatable) k) = true := by
    rw [getEvt_filter_eq ds k hk']
    exact locatable_getD_locPos ds k hk'
  rw [hloc, bool_true_third]

theorem bfs_step_used (safe : List Evt) (d : Rat → Rat → Rat → Rat → Rat)
    (t : Rat) (fl idx : Nat) (rest u e : List Nat) (m : List Evt)
    (h : u.contains idx = true) :
    bfs safe d t (fl + 1) (idx :: rest) u e m = bfs safe d t fl rest u e m := by
  show (if u.contains idx = true then bfs safe d t fl rest u e m else _) = _
  rw [if_pos h]

theorem bfs_step_new (safe : List Evt) (d : Rat → Rat → Rat → Rat → Rat)
    (t : Rat) (fl idx : Nat) (rest u e : List Nat) (m : List Evt)
    (hc : u.contains idx = false) (hl : locatable (getEvt safe idx) = true) :
    bfs safe d t (fl + 1) (idx :: rest) u e m
      = bfs safe d t fl
          ((scanNbrs safe d t (idx :: u) e (getEvt safe idx)).reverse ++ rest)
          (idx :: u) (scanNbrs safe d t (idx :: u) e (getEvt safe idx) ++ e)
          (m ++ [getEvt safe idx]) := by
  have hc' : ¬(u.contains idx = true) := by
    rw [hc]
    exact Bool.false_ne_true
  have hl' : ¬((!locatable (getEvt safe idx)) = true) := by
    rw [hl]
    exact Bool.false_ne_true
  show (if u.contains idx = true then _ else
      if (!locatable (getEvt safe idx)) = true then _ else _) = _
  rw [if_neg hc', if_neg hl']

theorem bfs_step_skip (safe : List Evt) (d : Rat → Rat → Rat → Rat → Rat)
    (t : Rat) (fl idx : Nat) (rest u e : List Nat) (m : List Evt)
    (hc : u.contains idx = false) (hl : locatable (getEvt safe idx) = false) :
    bfs safe d t (fl + 1) (idx :: rest) u e m
      = bfs safe d t fl rest (idx :: u) e m := by
  have hc' : ¬(u.contains idx = true) := by
    rw [hc]
    exact Bool.false_ne_true
  have hl' : (!locatable (getEvt safe idx)) = true := by
    rw [hl]
    rfl
  show (if u.contains idx = true then _ else
      if (!locatable (getEvt safe idx)) = true then _ else _) = _
  rw [if_neg hc', if_pos hl']

theorem bfs_map (ds : List Evt) (d : Rat → Rat → Rat → Rat → Rat) (t : Rat) :
    ∀ (fuel : Nat) (qK uK eK : List Nat) (m : List Evt),
      (∀ j ∈ qK, j < (locPos ds).length) →
      (∀ j ∈ uK, j < (locPos ds).length) →
      (∀ j ∈ eK, j < (locPos ds).length) →
      (bfs ds d t fuel (qK.map (fun j => (locPos ds).getD j 0))
          (uK.map (fun j => (locPos ds).getD j 0))
          (eK.map (fun j => (locPos ds).getD j 0)) m
        = ((bfs (ds.filter locatable) d t fuel qK uK eK m).1,
           ((bfs (ds.filter locatable) d t fuel qK uK eK m).2).map
             (fun j => (locPos ds).getD j 0)))
      ∧ (∀ j ∈ (bfs (ds.filter locatable) d t fuel qK uK eK m).2,
          j < (locPos ds).length) := by
  intro fuel
  induction fuel with
  | zero =>
    intro qK uK eK m _ hu _
    exact ⟨rfl, hu⟩
  | succ fl ih =>
    intro qK uK eK m hq hu he
    match qK with
    | [] => exact ⟨rfl, hu⟩
    | k :: rest =>
      have hk : k < (locPos ds).length := hq k (List.mem_cons_self k rest)
      have hrest : ∀ j ∈ rest, j < (locPos ds).length :=
        fun j hj => hq j (List.mem_cons_of_mem k hj)
      by_cases hcont : uK.contains k = true
      · have hcont2 : (uK.map (fun j => (locPos ds).getD j 0)).contains
            ((locPos ds).getD k 0) = true := by
          rw [contains_map_getD ds uK k hu hk]
          exact hcont
        rw [List.map_cons, bfs_step_used ds d t fl _ _ _ _ _ hcont2,
          bfs_step_used (ds.filter locatable) d t fl _ _ _ _ _ hcont]
        exact ih rest uK eK m hrest hu he
      · simp only [Bool.not_eq_true] at hcont
        have hcont2 : (uK.map (fun j => (locPos ds).getD j 0)).contains
            ((locPos ds).getD k 0) = false := by
          rw [contains_map_getD ds uK k hu hk]
          exact hcont
        have hlocds : locatable (getEvt ds ((locPos ds).getD k 0)) = true :=
          locatable_getD_locPos ds k hk
        have hlocds' : locatable (getEvt (ds.filter locatable) k) = true := by
          rw [getEvt_filter_eq ds k hk]
          exact hlocds
        rw [List.map_cons, bfs_step_new ds d t fl _ _ _ _ _ hcont2 hlocds]
        rw [show ((locPos ds).getD k 0 :: uK.map (fun j => (locPos ds).getD j 0))
            = (k :: uK).map (fun j => (locPos ds).getD j 0) from rfl]
        have hku : ∀ j ∈ k :: uK, j < (locPos ds).length := by
          intro j hj
          rcases List.mem_cons.mp hj with h | h
          · rw [h]; exact hk
          · exact hu j h
        rw [scanNbrs_map ds d t (k :: uK) eK _ hku he]
        rw [← getEvt_filter_eq ds k hk]
        rw [← List.map_reverse, ← List.map_append, ← List.map_append]
        have hns : ∀ j ∈ scanNbrs (ds.filter locatable) d t (k :: uK) eK
            (getEvt (ds.filter locatable) k), j < (locPos ds).length := by
          intro j hj
          have := mem_scanNbrs_lt _ d t _ _ _ j hj
          rwa [← locPos_length ds] at this
        have hq2 : ∀ j ∈ (scanNbrs (ds.filter locatable) d t (k :: uK) eK
              (getEvt (ds.filter locatable) k)).reverse ++ rest,
            j < (locPos ds).length := by
          intro j hj
          rcases List.mem_append.mp hj with h | h
          · exact hns j (List.mem_reverse.mp h)
          · exact hrest j h
        have he2 : ∀ j ∈ scanNbrs (ds.filter locatable) d t (k :: uK) eK
              (getEvt (ds.filter locatable) k) ++ eK,
            j < (locPos ds).length := by
          intro j hj
          rcases List.mem_append.mp hj with h | h
          · exact hns j h
          · exact he j h
        rw [bfs_step_new (ds.filter locatable) d t fl _ _ _ _ _ hcont hlocds']
        exact ih ((scanNbrs (ds.filter locatable) d t (k :: uK) eK
              (getEvt (ds.filter locatable) k)).reverse ++ rest)
            (k :: uK)
            (scanNbrs (ds.filter locatable) d t (k :: uK) eK
              (getEvt (ds.filter locatable) k) ++ eK)
            (m ++ [getEvt (ds.filter locatable) k]) hq2 hku he2

theorem scanNbrs_contains_eq (safe : List Evt) (d : Rat → Rat → Rat → Rat → Rat)
    (t : Rat) (u e : List Nat) (cur : Evt) :
    (List.range safe.length).filter
        (fun j => (scanNbrs safe d t u e cur).contains j)
      = scanNbrs safe d t u e cur := by
  conv_rhs => rw [show scanNbrs safe d t u e cur
    = (List.range safe.length).filter (fun j =>
        let cand := getEvt safe j
        ((!u.contains j && !e.contains j) && locatable cand) &&
          decide (d (latOf cur) (lonOf cur) (latOf cand) (lonOf cand) ≤ t))
    from rfl]
  apply List.filter_congr
  intro j _
  by_cases h : j ∈ scanNbrs safe d t u e cur
  · have h1 : (scanNbrs safe d t u e cur).contains j = true := by simpa using h
    have h2 := List.of_mem_filter (by exact h)
    rw [h1]
    exact h2.symm
  · have h1 : (scanNbrs safe d t u e cur).contains j = false := by
      rw [Bool.eq_false_iff]
      intro hc
      exact h (by simpa using hc)
    rw [h1]
    by_cases h2 : (let cand := getEvt safe j
        ((!u.contains j && !e.contains j) && locatable cand) &&
          decide (d (latOf cur) (lonOf cur) (latOf cand) (lonOf cand) ≤ t)) = true
    · exfalso
      apply h
      unfold scanNbrs
      exact List.mem_filter.mpr ⟨by assumption, h2⟩
    · simp only [Bool.not_eq_true] at h2
      exact h2.symm

theorem scanNbrs_not_enq (safe : List Evt) (d : Rat → Rat → Rat → Rat → Rat)
    (t : Rat) (u e : List Nat) (cur : Evt) (j : Nat)
    (hj : j ∈ scanNbrs safe d t u e cur) : e.contains j = false := by
  unfold scanNbrs at hj
  have hcond := List.of_mem_filter hj
  simp only [Bool.and_eq_true] at hcond
  rcases hcond with ⟨⟨⟨_, he⟩, _⟩, _⟩
  rwa [Bool.not_eq_true'] at he

theorem cnt_after_scanNbrs (safe : List Evt) (d : Rat → Rat → Rat → Rat → Rat)
    (t : Rat) (u e : List Nat) (cur : Evt) :
    ((List.range safe.length).filter
        (fun j => !((scanNbrs safe d t u e cur ++ e).contains j))).length
      + (scanNbrs safe d t u e cur).length
    = ((List.range safe.length).filter (fun j => !(e.contains j))).length := by
  have hsplit : (List.range safe.length).filter
      (fun j => !((scanNbrs safe d t u e cur ++ e).contains j))
      = ((List.range safe.length).filter (fun j => !(e.contains j))).filter
          (fun j => !((scanNbrs safe d t u e cur).contains j)) := by
    rw [List.filter_filter]
    apply List.filter_congr
    intro j _
    have happ : (scanNbrs safe d t u e cur ++ e).contains j
        = ((scanNbrs safe d t u e cur).contains j || e.contains j) := by
      by_cases h : j ∈ scanNbrs safe d t u e cur ++ e
      · have h1 : (scanNbrs safe d t u e cur ++ e).contains j = true := by
          simpa using h
        rcases List.mem_append.mp h with h2 | h2
        · have : (scanNbrs safe d t u e cur).contains j = true := by simpa using h2
          rw [h1, this, Bool.true_or]
        · have : e.contains j = true := by simpa using h2
          rw [h1, this, Bool.or_true]
      · have h1 : (scanNbrs safe d t u e cur ++ e).contains j = false := by
          rw [Bool.eq_false_iff]
          intro hc
          exact h (by simpa using hc)
        have h2 : (scanNbrs safe d t u e cur).contains j = false := by
          rw [Bool.eq_false_iff]
          intro hc
          exact h (List.mem_append_left _ (by simpa using hc))
        have h3 : e.contains j = false := by
          rw [Bool.eq_false_iff]
          intro hc
          exact h (List.mem_append_right _ (by simpa using hc))
        rw [h1, h2, h3]
        rfl
    rw [happ]
    cases (scanNbrs safe d t u e cur).contains j <;> cases e.contains j <;> rfl
  rw [hsplit]
  have hpart := List.length_eq_length_filter_add
    (l := (List.range safe.length).filter (fun j => !(e.contains j)))
    (fun j => (scanNbrs safe d t u e cur).contains j)
  have hns : ((List.range safe.length).filter (fun j => !(e.contains j))).filter
      (fun j => (scanNbrs safe d t u e cur).contains j)
      = scanNbrs safe d t u e cur := by
    rw [List.filter_filter]
    rw [show (List.range safe.length).filter (fun j =>
          (scanNbrs safe d t u e cur).contains j && !(e.contains j))
        = (List.range safe.length).filter (fun j =>
          (scanNbrs safe d t u e cur).contains j) from
      List.filter_congr (fun j _ => by
        by_cases h : (scanNbrs safe d t u e cur).contains j = true
        · have hj : j ∈ scanNbrs safe d t u e cur := by simpa using h
          rw [h, scanNbrs_not_enq safe d t u e cur j hj]
          rfl
        · simp only [Bool.not_eq_true] at h
          rw [h]
          rfl)]
    exact scanNbrs_contains_eq safe d t u e cur
  rw [hns] at hpart
  have hflip : ((List.range safe.length).filter (fun j => !(e.contains j))).filter
      (fun j => !((scanNbrs safe d t u e cur).contains j))
      = ((List.range safe.length).filter (fun j => !(e.contains j))).filter
          (fun j => !((fun j => (scanNbrs safe d t u e cur).contains j) j)) := rfl
  omega

theorem bfsSteps_cons_ge_one (n idx : Nat) (rest e : List Nat) :
    1 ≤ bfsSteps n (idx :: rest) e := by
  unfold bfsSteps
  simp
  omega

theorem bfs_fuel_succ (safe : List Evt) (d : Rat → Rat → Rat → Rat → Rat)
    (t : Rat) :
    ∀ (fl : Nat) (q u e : List Nat) (m : List Evt),
      bfsSteps safe.length q e ≤ fl →
      bfs safe d t (fl + 1) q u e m = bfs safe d t fl q u e m := by
  intro fl
  induction fl with
  | zero =>
    intro q u e m h
    match q with
    | [] => rfl
    | idx :: rest =>
      exfalso
      have := bfsSteps_cons_ge_one safe.length idx rest e
      omega
  | succ fl ih =>
    intro q u e m h
    match q with
    | [] => rfl
    | idx :: rest =>
      have hsteps : bfsSteps safe.length (idx :: rest) e
          = bfsSteps safe.length rest e + 1 := by
        unfold bfsSteps
        simp only [List.length_cons]
        omega
      by_cases hcont : u.contains idx = true
      · rw [bfs_step_used safe d t (fl + 1) _ _ _ _ _ hcont,
          bfs_step_used safe d t fl _ _ _ _ _ hcont]
        exact ih rest u e m (by omega)
      · simp only [Bool.not_eq_true] at hcont
        by_cases hloc : locatable (getEvt safe idx) = true
        · rw [bfs_step_new safe d t (fl + 1) _ _ _ _ _ hcont hloc,
            bfs_step_new safe d t fl _ _ _ _ _ hcont hloc]
          apply ih
          have hcnt := cnt_after_scanNbrs safe d t (idx :: u) e (getEvt safe idx)
          have hq : ((scanNbrs safe d t (idx :: u) e (getEvt safe idx)).reverse
              ++ rest).length = (scanNbrs safe d t (idx :: u) e
                (getEvt safe idx)).length + rest.length := by
            simp
          unfold bfsSteps at h ⊢
          simp only [List.length_cons] at h
          omega
        · simp only [Bool.not_eq_true] at hloc
          rw [bfs_step_skip safe d t (fl + 1) _ _ _ _ _ hcont hloc,
            bfs_step_skip safe d t fl _ _ _ _ _ hcont hloc]
          exact ih rest (idx :: u) e m (by omega)

theorem bfs_fuel_ge (safe : List Evt) (d : Rat → Rat → Rat → Rat → Rat)
    (t : Rat) :
    ∀ (extra fl : Nat) (q u e : List Nat) (m : List Evt),
      bfsSteps safe.length q e ≤ fl →
      bfs safe d t (fl + extra) q u e m = bfs safe d t fl q u e m := by
  intro extra
  induction extra with
  | zero => intro fl q u e m _; rfl
  | succ x ih =>
    intro fl q u e m h
    rw [show fl + (x + 1) = (fl + x) + 1 from rfl,
      bfs_fuel_succ safe d t (fl + x) q u e m (by omega)]
    exact ih fl q u e m h

theorem groupsGo_step_used (safe : List Evt) (d : Rat → Rat → Rat → Rat → Rat)
    (t : Rat) (now : Int) (i : Nat) (is used : List Nat) (acc : List Cluster)
    (h : used.contains i = true) :
    groupsGo safe d t now (i :: is) used acc
      = groupsGo safe d t now is used acc := by
  show (if used.contains i = true then groupsGo safe d t now is used acc
    else _) = _
  rw [if_pos h]

theorem groupsGo_step_unloc (safe : List Evt) (d : Rat → Rat → Rat → Rat → Rat)
    (t : Rat) (now : Int) (i : Nat) (is used : List Nat) (acc : List Cluster)
    (h1 : used.contains i = false) (h2 : locatable (getEvt safe i) = false) :
    groupsGo safe d t now (i :: is) used acc
      = groupsGo safe d t now is used acc := by
  have h1' : ¬(used.contains i = true) := by
    rw [h1]
    exact Bool.false_ne_true
  have h2' : (!locatable (getEvt safe i)) = true := by
    rw [h2]
    rfl
  show (if used.contains i = true then groupsGo safe d t now is used acc
    else if (!locatable (getEvt safe i)) = true then
      groupsGo safe d t now is used acc
    else _) = _
  rw [if_neg h1', if_pos h2']

theorem groupsGo_elim_seed (safe : List Evt) (d : Rat → Rat → Rat → Rat → Rat)
    (t : Rat) (now : Int) (i : Nat) (is used : List Nat) (acc : List Cluster)
    (h2 : locatable (getEvt safe i) = false) :
    groupsGo safe d t now (i :: is) used acc
      = groupsGo safe d t now is used acc := by
  by_cases h : used.contains i = true
  · exact groupsGo_step_used safe d t now i is used acc h
  · simp only [Bool.not_eq_true] at h
    exact groupsGo_step_unloc safe d t now i is used acc h h2

theorem groupsGo_step_seed (safe : List Evt) (d : Rat → Rat → Rat → Rat → Rat)
    (t : Rat) (now : Int) (i : Nat) (is used : List Nat) (acc : List Cluster)
    (h1 : used.contains i = false) (h2 : locatable (getEvt safe i) = true) :
    groupsGo safe d t now (i :: is) used acc
      = (if (bfs safe d t (safe.length + 1) [i] used [i] []).1.length > 1 then
          match summarize now (bfs safe d t (safe.length + 1) [i] used [i] []).1 with
          | some s => groupsGo safe d t now is
              (bfs safe d t (safe.length + 1) [i] used [i] []).2 (acc ++ [s])
          | none => groupsGo safe d t now is
              (bfs safe d t (safe.length + 1) [i] used [i] []).2 acc
        else groupsGo safe d t now is
          (bfs safe d t (safe.length + 1) [i] used [i] []).2 acc) := by
  have h1' : ¬(used.contains i = true) := by
    rw [h1]
    exact Bool.false_ne_true
  have h2' : ¬((!locatable (getEvt safe i)) = true) := by
    rw [h2]
    exact Bool.false_ne_true
  show (if used.contains i = true then groupsGo safe d t now is used acc
    else if (!locatable (getEvt safe i)) = true then
      groupsGo safe d t now is used acc
    else _) = _
  rw [if_neg h1', if_neg h2']

theorem groupsGo_filter_seeds (safe : List Evt)
    (d : Rat → Rat → Rat → Rat → Rat) (t : Rat) (now : Int) :
    ∀ (S used : List Nat) (acc : List Cluster),
      groupsGo safe d t now S used acc
        = groupsGo safe d t now
            (S.filter (fun i => locatable (getEvt safe i))) used acc := by
  intro S
  induction S with
  | nil => intro used acc; rfl
  | cons i is ih =>
    intro used acc
    by_cases hloc : locatable (getEvt safe i) = true
    · rw [List.filter_cons_of_pos (by simpa using hloc)]
      by_cases hcont : used.contains i = true
      · rw [groupsGo_step_used safe d t now i is used acc hcont,
          groupsGo_step_used safe d t now i _ used acc hcont]
        exact ih used acc
      · simp only [Bool.not_eq_true] at hcont
        rw [groupsGo_step_seed safe d t now i is used acc hcont hloc,
          groupsGo_step_seed safe d t now i _ used acc hcont hloc]
        split
        · cases summarize now (bfs safe d t (safe.length + 1) [i] used [i] []).1 with
          | some s => exact ih _ _
          | none => exact ih _ _
        · exact ih _ _
    · simp only [Bool.not_eq_true] at hloc
      rw [List.filter_cons_of_neg (by simp [hloc]),
        groupsGo_elim_seed safe d t now i is used acc hloc]
      exact ih used acc

theorem groupsGo_map (ds : List Evt) (d : Rat → Rat → Rat → Rat → Rat)
    (t : Rat) (now : Int) :
    ∀ (SK : List Nat) (uK : List Nat) (acc : List Cluster),
      (∀ j ∈ SK, j < (locPos ds).length) →
      (∀ j ∈ uK, j < (locPos ds).length) →
      groupsGo ds d t now (SK.map (fun j => (locPos ds).getD j 0))
          (uK.map (fun j => (locPos ds).getD j 0)) acc
        = groupsGo (ds.filter locatable) d t now SK uK acc := by
  intro SK
  induction SK with
  | nil => intro uK acc _ _; rfl
  | cons k ks ih =>
    intro uK acc hS hu
    have hk : k < (locPos ds).length := hS k (List.mem_cons_self k ks)
    have hks : ∀ j ∈ ks, j < (locPos ds).length :=
      fun j hj => hS j (List.mem_cons_of_mem k hj)
    by_cases hcont : uK.contains k = true
    · have hcont2 : (uK.map (fun j => (locPos ds).getD j 0)).contains
          ((locPos ds).getD k 0) = true := by
        rw [contains_map_getD ds uK k hu hk]
        exact hcont
      rw [List.map_cons, groupsGo_step_used ds d t now _ _ _ acc hcont2,
        groupsGo_step_used (ds.filter locatable) d t now _ _ _ acc hcont]
      exact ih uK acc hks hu
    · simp only [Bool.not_eq_true] at hcont
      have hcont2 : (uK.map (fun j => (locPos ds).getD j 0)).contains
          ((locPos ds).getD k 0) = false := by
        rw [contains_map_getD ds uK k hu hk]
        exact hcont
      have hlocds : locatable (getEvt ds ((locPos ds).getD k 0)) = true :=
        locatable_getD_locPos ds k hk
      have hlocds' : locatable (getEvt (ds.filter locatable) k) = true := by
        rw [getEvt_filter_eq ds k hk]
        exact hlocds
      rw [List.map_cons, groupsGo_step_seed ds d t now _ _ _ acc hcont2 hlocds,
        groupsGo_step_seed (ds.filter locatable) d t now _ _ _ acc hcont hlocds']
      have hone : ∀ j ∈ [k], j < (locPos ds).length := by
        intro j hj
        rw [List.mem_singleton.mp hj]
        exact hk
      have hbm := bfs_map ds d t (ds.length + 1) [k] uK [k] [] hone hu hone
      have hfuel : bfs (ds.filter locatable) d t (ds.length + 1) [k] uK [k] []
          = bfs (ds.filter locatable) d t ((ds.filter locatable).length + 1)
              [k] uK [k] [] := by
        have hle : (ds.filter locatable).length ≤ ds.length :=
          List.length_filter_le _ _
        have hext : ds.length + 1
            = ((ds.filter locatable).length + 1)
              + (ds.length - (ds.filter locatable).length) := by omega
        rw [hext]
        apply bfs_fuel_ge
        unfold bfsSteps
        have := List.length_filter_le (fun j => !([k].contains j))
          (List.range (ds.filter locatable).length)
        simp only [List.length_singleton, List.length_range] at this ⊢
        omega
      have hmain := hbm.1
      rw [hfuel] at hbm hmain
      rw [show ([(locPos ds).getD k 0] : List Nat)
          = ([k] : List Nat).map (fun j => (locPos ds).getD j 0) from rfl]
      rw [hmain]
      have hused2 := hbm.2
      split
      · cases summarize now
          (bfs (ds.filter locatable) d t ((ds.filter locatable).length + 1)
            [k] uK [k] []).1 with
        | some s => exact ih _ _ hks hused2
        | none => exact ih _ _ hks hused2
      · exact ih _ _ hks hused2

/-- C8: clustering excludes unlocatable entries — for every detection
input list, a detection with non-finite or missing coordinates never
appears in any returned cluster's member list, and removing all
unlocatable detections from the input leaves the returned cluster list
(including summaries and ordering) exactly unchanged. -/
theorem cluster_excludes_unlocatable (d : Rat → Rat → Rat → Rat → Rat) (t : Rat)
    (now : Int) (ds : List Evt) :
    (∀ g ∈ groupOverlappingDetections d t now ds, ∀ x ∈ g.members,
      locatable x = true) ∧
    groupOverlappingDetections d t now ds
      = groupOverlappingDetections d t now (ds.filter locatable) := by
  constructor
  · intro g hg x hx
    have hg2 : g ∈ groupsGo ds d t now (List.range ds.length) [] [] :=
      (mem_sortByCountDesc g _).mp hg
    exact groupsGo_members_locatable ds d t now (List.range ds.length) [] []
      (by intro g' hg'; simp at hg') g hg2 x hx
  · unfold groupOverlappingDetections
    congr 1
    rw [groupsGo_filter_seeds ds d t now (List.range ds.length) [] []]
    rw [show (List.range ds.length).filter (fun i => locatable (getEvt ds i))
        = locPos ds from rfl]
    have hrw : locPos ds = (List.range (locPos ds).length).map
        (fun j => (locPos ds).getD j 0) := (range_map_getD _).symm
    nth_rewrite 1 [hrw]
    have hmap := groupsGo_map ds d t now (List.range (locPos ds).length) [] []
      (by intro j hj; exact List.mem_range.mp hj)
      (by intro j hj; simp at hj)
    have hempty : (([] : List Nat).map (fun j => (locPos ds).getD j 0))
        = ([] : List Nat) := rfl
    rw [hempty] at hmap
    rw [hmap, locPos_length ds]

end ClusterUnlocatable
